import Mathlib

/-!
Verification of the differential-privacy accounting library
(`dp_accounting/common.py` and `dp_accounting/privacy_loss_distribution.py`).

The Python code is shallowly embedded: machine floats are idealised as exact
elements of a linear ordered field (`ℚ` or `ℝ`), Python dictionaries with
integer keys become association lists `List (ℤ × _)` in insertion order,
functions that can raise `ValueError` return `Option`/`Except`, and the
FFT-based convolution routines are modelled by their exact-arithmetic
semantics (the full linear convolution, sliced exactly as the source slices
the inverse transform).
-/

set_option maxHeartbeats 1000000

namespace DPAccounting

variable {α : Type} [LinearOrderedField α]

/-- Association-list lookup: first value stored under key `k`, if any.
Models a Python dictionary read (dictionaries never hold duplicate keys). -/
def lookupKey {β : Type} : List (ℤ × β) → ℤ → Option β
  | [], _ => none
  | e :: rest, k => if e.1 = k then some e.2 else lookupKey rest k

/-- Models `input_dictionary.get(i, 0)` from `common.py`. -/
def getOr0 (d : List (ℤ × α)) (k : ℤ) : α := (lookupKey d k).getD 0

/-- Left fold of `min` over a key list; models `min(input_dictionary)`. -/
def keyMin : ℤ → List ℤ → ℤ
  | a, [] => a
  | a, k :: ks => keyMin (min a k) ks

/-- Left fold of `max` over a key list; models `max(input_dictionary)`. -/
def keyMax : ℤ → List ℤ → ℤ
  | a, [] => a
  | a, k :: ks => keyMax (max a k) ks

/-- Models `common.dictionary_to_list`.  The Python function evaluates
`min(input_dictionary)`, which raises `ValueError` on an empty dictionary;
that failure is modelled by `none`. -/
def dictionary_to_list : List (ℤ × α) → Option (ℤ × List α)
  | [] => none
  | e :: rest =>
    let offset := keyMin e.1 (rest.map Prod.fst)
    let max_val := keyMax e.1 (rest.map Prod.fst)
    some (offset,
      (List.range (max_val - offset + 1).toNat).map
        (fun i : ℕ => getOr0 (e :: rest) (offset + (i : ℤ))))

/-- The truncation scan of `common.list_to_dictionary`: starting from
accumulated mass `acc`, walk the list adding entries and return the index of
the first position where the accumulated mass exceeds `half`
(`tail_mass_truncation / 2`), or the length of the list if it never does. -/
def truncIdx (half : α) : List α → α → ℕ
  | [], _ => 0
  | x :: xs, acc => if half < acc + x then 0 else truncIdx half xs (acc + x) + 1

/-- Models `common.list_to_dictionary`: the same scan is run from the low end
and (on the reversed list) from the high end, and the surviving strictly
positive entries are emitted with their keys shifted by `offset`. -/
def list_to_dictionary (input_list : List α) (offset : ℤ) (tail_mass_truncation : α) :
    List (ℤ × α) :=
  let lower_truncation_index := truncIdx (tail_mass_truncation / 2) input_list 0
  let upper_cut := truncIdx (tail_mass_truncation / 2) input_list.reverse 0
  (List.range' lower_truncation_index (input_list.length - upper_cut - lower_truncation_index)).filterMap
    (fun i =>
      if 0 < input_list.getD i 0 then some (((i : ℤ) + offset, input_list.getD i 0)) else none)

/-- Exact-arithmetic semantics of `scipy.signal.fftconvolve` on two finite
signals: the full linear convolution, of length `len1 + len2 - 1`. -/
def fftconvolve (list1 list2 : List α) : List α :=
  (List.range (list1.length + list2.length - 1)).map (fun k =>
    (Finset.range list1.length).sum (fun i =>
      if i ≤ k then list1.getD i 0 * list2.getD (k - i) 0 else 0))

/-- Models `common.convolve_dictionary` (packing an empty dictionary raises,
hence the `Option`). -/
def convolve_dictionary (dictionary1 dictionary2 : List (ℤ × α))
    (tail_mass_truncation : α) : Option (List (ℤ × α)) :=
  match dictionary_to_list dictionary1, dictionary_to_list dictionary2 with
  | some (min1, list1), some (min2, list2) =>
      some (list_to_dictionary (fftconvolve list1 list2) (min1 + min2) tail_mass_truncation)
  | _, _ => none

/-- The exact `n`-fold linear self-convolution (`n = 0` gives the unit
impulse).  This is what the source's `fft/ifft` pipeline computes in exact
arithmetic before the final slice. -/
def nFoldConvolve (l : List α) : ℕ → List α
  | 0 => [1]
  | n + 1 => fftconvolve (nFoldConvolve l n) l

/-- Models `common.self_convolve`.  In exact arithmetic the source computes
the full linear self-convolution on a transform length
`fast_len ≥ output_len` and slices the first
`output_len = num_times * len(input_list) - 1` coefficients, zero-padding
when the exact convolution is shorter (for `num_times ≥ 3`) and truncating
when it is longer (for `num_times = 1`, where `fft(input_list, fast_len)`
also drops trailing input samples whenever `fast_len < len(input_list)`). -/
def self_convolve (input_list : List α) (num_times : ℕ) : List α :=
  let output_len := num_times * input_list.length - 1
  (nFoldConvolve input_list num_times ++ List.replicate output_len 0).take output_len

/-- Models `common.self_convolve_dictionary` (packing an empty dictionary
raises, hence the `Option`). -/
def self_convolve_dictionary (input_dictionary : List (ℤ × α)) (num_times : ℕ) :
    Option (List (ℤ × α)) :=
  (dictionary_to_list input_dictionary).map (fun ml =>
    list_to_dictionary (self_convolve ml.2 num_times) (ml.1 * (num_times : ℤ)) 0)

/-! ### Lookup and key-bound lemmas for the dictionary codec -/

theorem lookupKey_eq_none {β : Type} :
    ∀ (d : List (ℤ × β)) (k : ℤ), lookupKey d k = none ↔ k ∉ d.map Prod.fst
  | [], k => by simp [lookupKey]
  | e :: rest, k => by
    by_cases h : e.1 = k
    · simp [lookupKey, h]
    · simp [lookupKey, h, lookupKey_eq_none rest k, Ne.symm h]

theorem mem_of_lookupKey {β : Type} :
    ∀ (d : List (ℤ × β)) (k : ℤ) (v : β), lookupKey d k = some v → (k, v) ∈ d
  | [], _, _ => by intro h; simp [lookupKey] at h
  | e :: rest, k, v => by
    by_cases h : e.1 = k
    · intro hv
      rw [lookupKey, if_pos h] at hv
      obtain rfl : e.2 = v := by injection hv
      exact h ▸ List.mem_cons_self e rest
    · intro hv
      rw [lookupKey, if_neg h] at hv
      exact List.mem_cons_of_mem e (mem_of_lookupKey rest k v hv)

theorem lookupKey_of_mem {β : Type} :
    ∀ (d : List (ℤ × β)), (d.map Prod.fst).Nodup →
      ∀ k v, (k, v) ∈ d → lookupKey d k = some v
  | [], _, _, _, hmem => absurd hmem (List.not_mem_nil _)
  | e :: rest, hnd, k, v, hmem => by
    rcases List.mem_cons.mp hmem with h | h
    · subst h
      simp [lookupKey]
    · have hk : k ∈ rest.map Prod.fst := List.mem_map.mpr ⟨(k, v), h, rfl⟩
      have hne : e.1 ≠ k := by
        rintro rfl
        exact (List.nodup_cons.mp (by simpa using hnd)).1 hk
      rw [lookupKey, if_neg hne]
      exact lookupKey_of_mem rest (List.nodup_cons.mp (by simpa using hnd)).2 k v h

theorem getOr0_pos (d : List (ℤ × α)) (hpos : ∀ e ∈ d, 0 < e.2) (k : ℤ) :
    0 < getOr0 d k ↔ k ∈ d.map Prod.fst := by
  unfold getOr0
  cases hl : lookupKey d k with
  | none =>
    simp only [Option.getD_none]
    simpa [lt_irrefl] using (lookupKey_eq_none d k).mp hl
  | some v =>
    have hv : 0 < v := hpos _ (mem_of_lookupKey d k v hl)
    have hk : k ∈ d.map Prod.fst :=
      List.mem_map.mpr ⟨(k, v), mem_of_lookupKey d k v hl, rfl⟩
    simpa [hv] using hk

theorem keyMin_le_self : ∀ (ks : List ℤ) (a : ℤ), keyMin a ks ≤ a
  | [], _ => le_rfl
  | k :: ks, a => (keyMin_le_self ks (min a k)).trans (min_le_left a k)

theorem keyMin_le_mem : ∀ (ks : List ℤ) (a : ℤ), ∀ k ∈ ks, keyMin a ks ≤ k
  | x :: ks, a, k, hk => by
    rcases List.mem_cons.mp hk with h | h
    · subst h
      exact (keyMin_le_self ks (min a k)).trans (min_le_right a k)
    · exact keyMin_le_mem ks (min a x) k h

theorem keyMin_mem : ∀ (ks : List ℤ) (a : ℤ), keyMin a ks = a ∨ keyMin a ks ∈ ks
  | [], a => Or.inl rfl
  | k :: ks, a => by
    rcases keyMin_mem ks (min a k) with h | h
    · rcases min_choice a k with hm | hm
      · exact Or.inl (by rw [keyMin, h, hm])
      · exact Or.inr (by rw [keyMin, h, hm]; exact List.mem_cons_self k ks)
    · exact Or.inr (List.mem_cons_of_mem k h)

theorem le_keyMax_self : ∀ (ks : List ℤ) (a : ℤ), a ≤ keyMax a ks
  | [], _ => le_rfl
  | k :: ks, a => (le_max_left a k).trans (le_keyMax_self ks (max a k))

theorem mem_le_keyMax : ∀ (ks : List ℤ) (a : ℤ), ∀ k ∈ ks, k ≤ keyMax a ks
  | x :: ks, a, k, hk => by
    rcases List.mem_cons.mp hk with h | h
    · subst h
      exact (le_max_right a k).trans (le_keyMax_self ks (max a k))
    · exact mem_le_keyMax ks (max a x) k h

theorem keyMax_mem : ∀ (ks : List ℤ) (a : ℤ), keyMax a ks = a ∨ keyMax a ks ∈ ks
  | [], a => Or.inl rfl
  | k :: ks, a => by
    rcases keyMax_mem ks (max a k) with h | h
    · rcases max_choice a k with hm | hm
      · exact Or.inl (by rw [keyMax, h, hm])
      · exact Or.inr (by rw [keyMax, h, hm]; exact List.mem_cons_self k ks)
    · exact Or.inr (List.mem_cons_of_mem k h)

/-- Lookup in the list produced by the filter step of `list_to_dictionary`. -/
theorem lookupKey_unpack (L : List α) (off k : ℤ) :
    ∀ (is : List ℕ), is.Nodup →
      lookupKey (is.filterMap (fun i =>
          if 0 < L.getD i 0 then some (((i : ℤ) + off, L.getD i 0)) else none)) k =
        if off ≤ k ∧ (k - off).toNat ∈ is ∧ 0 < L.getD (k - off).toNat 0
        then some (L.getD (k - off).toNat 0) else none
  | [], _ => by simp [lookupKey]
  | i :: is, hnd => by
    have hnd' : is.Nodup := (List.nodup_cons.mp hnd).2
    have hni : i ∉ is := (List.nodup_cons.mp hnd).1
    have ih := lookupKey_unpack L off k is hnd'
    by_cases hpi : 0 < L.getD i 0
    · have hcons : (i :: is).filterMap (fun j =>
          if 0 < L.getD j 0 then some (((j : ℤ) + off, L.getD j 0)) else none) =
          ((i : ℤ) + off, L.getD i 0) :: is.filterMap (fun j =>
            if 0 < L.getD j 0 then some (((j : ℤ) + off, L.getD j 0)) else none) := by
        rw [List.filterMap_cons, if_pos hpi]
      rw [hcons]
      by_cases hik : (i : ℤ) + off = k
      · have htn : (k - off).toNat = i := by omega
        have hok : off ≤ k := by omega
        rw [lookupKey, if_pos hik]
        rw [if_pos ⟨hok, by simp [htn], by rwa [htn]⟩, htn]
      · rw [lookupKey, if_neg hik, ih]
        by_cases hc : off ≤ k ∧ (k - off).toNat ∈ is ∧ 0 < L.getD (k - off).toNat 0
        · rw [if_pos hc, if_pos ⟨hc.1, List.mem_cons_of_mem i hc.2.1, hc.2.2⟩]
        · rw [if_neg hc, if_neg ?_]
          rintro ⟨h1, h2, h3⟩
          rcases List.mem_cons.mp h2 with h | h
          · exact hik (by omega)
          · exact hc ⟨h1, h, h3⟩
    · have hcons : (i :: is).filterMap (fun j =>
          if 0 < L.getD j 0 then some (((j : ℤ) + off, L.getD j 0)) else none) =
          is.filterMap (fun j =>
            if 0 < L.getD j 0 then some (((j : ℤ) + off, L.getD j 0)) else none) := by
        rw [List.filterMap_cons, if_neg hpi]
      rw [hcons, ih]
      by_cases hc : off ≤ k ∧ (k - off).toNat ∈ is ∧ 0 < L.getD (k - off).toNat 0
      · rw [if_pos hc, if_pos ⟨hc.1, List.mem_cons_of_mem i hc.2.1, hc.2.2⟩]
      · rw [if_neg hc, if_neg ?_]
        rintro ⟨h1, h2, h3⟩
        rcases List.mem_cons.mp h2 with h | h
        · exact hpi (h ▸ h3)
        · exact hc ⟨h1, h, h3⟩

/-- If the very first entry already exceeds the budget, the truncation scan
stops at index `0`. -/
theorem truncIdx_eq_zero (half : α) (l : List α) (acc : α)
    (hlen : 0 < l.length) (h : half < acc + l.getD 0 0) : truncIdx half l acc = 0 := by
  cases l with
  | nil => simp at hlen
  | cons x xs => rw [truncIdx, if_pos (by simpa using h)]

/-- Packing a duplicate-free dictionary of strictly positive masses and
unpacking the result with zero truncation recovers the original lookup
function. -/
theorem unpack_pack_lookup (d : List (ℤ × α)) (hnd : (d.map Prod.fst).Nodup)
    (hpos : ∀ e ∈ d, 0 < e.2) {off : ℤ} {L : List α}
    (hpack : dictionary_to_list d = some (off, L)) (k : ℤ) :
    lookupKey (list_to_dictionary L off 0) k = lookupKey d k := by
  cases d with
  | nil => simp [dictionary_to_list] at hpack
  | cons e rest =>
    have hpack' : keyMin e.1 (rest.map Prod.fst) = off ∧
        (List.range (keyMax e.1 (rest.map Prod.fst) - keyMin e.1 (rest.map Prod.fst) + 1).toNat).map
          (fun i : ℕ => getOr0 (e :: rest) (keyMin e.1 (rest.map Prod.fst) + (i : ℤ))) = L := by
      simpa [dictionary_to_list] using hpack
    obtain ⟨hoffeq, hLeq⟩ := hpack'
    subst hoffeq
    subst hLeq
    set mn := keyMin e.1 (rest.map Prod.fst) with hmn
    set mx := keyMax e.1 (rest.map Prod.fst) with hmx
    set len := (mx - mn + 1).toNat with hlendef
    set L := (List.range len).map (fun i : ℕ => getOr0 (e :: rest) (mn + (i : ℤ))) with hLdef
    have hmle : ∀ x ∈ (e :: rest).map Prod.fst, mn ≤ x := by
      intro x hx
      rcases List.mem_cons.mp hx with h | h
      · exact h ▸ keyMin_le_self _ _
      · exact keyMin_le_mem _ _ x h
    have hxle : ∀ x ∈ (e :: rest).map Prod.fst, x ≤ mx := by
      intro x hx
      rcases List.mem_cons.mp hx with h | h
      · exact h ▸ le_keyMax_self _ _
      · exact mem_le_keyMax _ _ x h
    have hmnmem : mn ∈ (e :: rest).map Prod.fst := by
      rcases keyMin_mem (rest.map Prod.fst) e.1 with h | h
      · simp only [List.map_cons]
        rw [hmn, h]
        exact List.mem_cons_self _ _
      · exact List.mem_cons_of_mem _ h
    have hmxmem : mx ∈ (e :: rest).map Prod.fst := by
      rcases keyMax_mem (rest.map Prod.fst) e.1 with h | h
      · simp only [List.map_cons]
        rw [hmx, h]
        exact List.mem_cons_self _ _
      · exact List.mem_cons_of_mem _ h
    have hmnmx : mn ≤ mx := hmle mx hmxmem
    have hlen : (len : ℤ) = mx - mn + 1 := Int.toNat_of_nonneg (by omega)
    have hlenpos : 0 < len := by omega
    have hLlen : L.length = len := by simp [hLdef]
    have hgetD : ∀ i, i < len → L.getD i 0 = getOr0 (e :: rest) (mn + i) := by
      intro i hi
      simp [hLdef, List.getD_eq_getElem?_getD, List.getElem?_range hi]
    have hlow : truncIdx 0 L 0 = 0 := by
      apply truncIdx_eq_zero _ _ _ (by omega)
      rw [hgetD 0 hlenpos]
      simpa using (getOr0_pos (e :: rest) hpos mn).mpr hmnmem
    have hhigh : truncIdx 0 L.reverse 0 = 0 := by
      apply truncIdx_eq_zero _ _ _ (by simpa [hLlen] using hlenpos)
      have hrev : L.reverse.getD 0 0 = L.getD (len - 1) 0 := by
        rw [List.getD_eq_getElem?_getD, List.getD_eq_getElem?_getD,
          List.getElem?_reverse (by omega), hLlen]
        simp
      rw [hrev, hgetD (len - 1) (by omega)]
      have hkey : mn + ((len - 1 : ℕ) : ℤ) = mx := by omega
      rw [hkey]
      simpa using (getOr0_pos (e :: rest) hpos mx).mpr hmxmem
    have hunf : list_to_dictionary L mn 0 = (List.range len).filterMap
        (fun i => if 0 < L.getD i 0 then some (((i : ℤ) + mn, L.getD i 0)) else none) := by
      simp only [list_to_dictionary, zero_div, hlow, hhigh, Nat.sub_zero, hLlen]
      rw [← List.range_eq_range']
    rw [hunf, lookupKey_unpack L mn k (List.range len) (List.nodup_range len)]
    cases hk : lookupKey (e :: rest) k with
    | none =>
      have hknot : k ∉ (e :: rest).map Prod.fst := (lookupKey_eq_none _ k).mp hk
      rw [if_neg]
      rintro ⟨h1, h2, h3⟩
      rw [List.mem_range] at h2
      rw [hgetD _ h2] at h3
      have hkk : mn + ((k - mn).toNat : ℤ) = k := by omega
      rw [hkk] at h3
      exact hknot ((getOr0_pos _ hpos k).mp h3)
    | some v =>
      have hmem := mem_of_lookupKey _ k v hk
      have hkmem : k ∈ (e :: rest).map Prod.fst := List.mem_map.mpr ⟨(k, v), hmem, rfl⟩
      have h1 : mn ≤ k := hmle k hkmem
      have h2 : k ≤ mx := hxle k hkmem
      have hi : (k - mn).toNat < len := by omega
      have hval : L.getD (k - mn).toNat 0 = v := by
        rw [hgetD _ hi]
        have hkk : mn + ((k - mn).toNat : ℤ) = k := by omega
        rw [hkk]
        unfold getOr0
        rw [hk]
        rfl
      rw [if_pos ⟨h1, List.mem_range.mpr hi, by rw [hval]; exact hpos _ hmem⟩, hval]

/-- C9: packing a nonempty integer-keyed mapping (duplicate-free keys,
strictly positive masses) with `dictionary_to_list` and unpacking the
resulting offset and dense list with `list_to_dictionary` at
`tail_mass_truncation = 0` returns a mapping equal to the original: the two
have identical lookup functions. -/
theorem dictionary_codec_roundtrip (d : List (ℤ × α)) (hne : d ≠ [])
    (hnd : (d.map Prod.fst).Nodup) (hpos : ∀ e ∈ d, 0 < e.2) :
    ∃ off L, dictionary_to_list d = some (off, L) ∧
      ∀ k, lookupKey (list_to_dictionary L off 0) k = lookupKey d k := by
  cases d with
  | nil => exact absurd rfl hne
  | cons e rest =>
    exact ⟨_, _, rfl, fun k => unpack_pack_lookup (e :: rest) hnd hpos rfl k⟩

/-- Closed-form witness for `dictionary_codec_roundtrip`. -/
theorem dictionary_codec_roundtrip_witness :
    ([((3 : ℤ), (2 : ℚ)), (1, 1/2)] ≠ []) ∧
    (([((3 : ℤ), (2 : ℚ)), (1, 1/2)].map Prod.fst).Nodup) ∧
    (∀ e ∈ [((3 : ℤ), (2 : ℚ)), (1, 1/2)], 0 < e.2) ∧
    (∃ off L, dictionary_to_list [((3 : ℤ), (2 : ℚ)), (1, 1/2)] = some (off, L) ∧
      ∀ k, lookupKey (list_to_dictionary L off 0) k
        = lookupKey [((3 : ℤ), (2 : ℚ)), (1, 1/2)] k) :=
  ⟨by simp, by simp, by norm_num,
    dictionary_codec_roundtrip _ (by simp) (by simp) (by norm_num)⟩

/-- The truncation scan never moves past the end of the list. -/
theorem truncIdx_le_length (half : α) :
    ∀ (l : List α) (acc : α), truncIdx half l acc ≤ l.length
  | [], _ => by simp [truncIdx]
  | x :: xs, acc => by
    by_cases hx : half < acc + x
    · simp [truncIdx, hx]
    · simpa [truncIdx, hx, Nat.succ_le_succ_iff] using truncIdx_le_length half xs (acc + x)

/-- The mass skipped by the truncation scan, on top of the mass `acc`
accumulated so far, never exceeds the budget `half`. -/
theorem truncIdx_take_sum (half : α) :
    ∀ (l : List α) (acc : α), acc ≤ half → acc + (l.take (truncIdx half l acc)).sum ≤ half
  | [], acc, h => by simpa [truncIdx] using h
  | x :: xs, acc, h => by
    by_cases hx : half < acc + x
    · simpa [truncIdx, hx] using h
    · have ih := truncIdx_take_sum half xs (acc + x) (le_of_not_lt hx)
      simpa [truncIdx, hx, add_assoc] using ih

/-- C7: `list_to_dictionary` drops a total mass of at most
`tail_mass_truncation / 2` from the low end of the list (the entries below
`lower_truncation_index`) and at most `tail_mass_truncation / 2` from the
high end (the entries above `upper_truncation_index`); and on the concrete
input `[0.2, 0.5, 0.3]` with offset `1` and truncation `0.6` it returns
exactly `{2: 0.5}`. -/
theorem list_to_dictionary_truncation_bound (l : List α) (offset : ℤ) (t : α)
    (ht : 0 ≤ t) (hl : ∀ x ∈ l, 0 ≤ x) :
    (l.take (truncIdx (t / 2) l 0)).sum ≤ t / 2 ∧
    (l.drop (l.length - truncIdx (t / 2) l.reverse 0)).sum ≤ t / 2 ∧
    list_to_dictionary ([1/5, 1/2, 3/10] : List ℚ) 1 (3/5) = [(2, 1/2)] := by
  have half_nonneg : (0 : α) ≤ t / 2 := by positivity
  refine ⟨?_, ?_, ?_⟩
  · simpa using truncIdx_take_sum (t / 2) l 0 half_nonneg
  · have h1 : l.drop (l.length - truncIdx (t / 2) l.reverse 0)
        = (l.reverse.take (truncIdx (t / 2) l.reverse 0)).reverse :=
      List.rtake_eq_reverse_take_reverse l _
    rw [h1, List.sum_reverse]
    simpa using truncIdx_take_sum (t / 2) l.reverse 0 half_nonneg
  · norm_num [list_to_dictionary, truncIdx, List.range', List.getD, List.filterMap_cons]

/-- Closed-form witness for `list_to_dictionary_truncation_bound`. -/
theorem list_to_dictionary_truncation_bound_witness :
    (0 : ℚ) ≤ 3/5 ∧ (∀ x ∈ ([1/5, 1/2, 3/10] : List ℚ), 0 ≤ x) ∧
    (([1/5, 1/2, 3/10] : List ℚ).take
        (truncIdx ((3/5 : ℚ) / 2) ([1/5, 1/2, 3/10] : List ℚ) 0)).sum ≤ (3/5 : ℚ) / 2 :=
  ⟨by norm_num, by norm_num,
    (list_to_dictionary_truncation_bound ([1/5, 1/2, 3/10] : List ℚ) 1 (3/5)
      (by norm_num) (by norm_num)).1⟩

/-- C4: the `self_convolve` slice length is `num_times * len(input_list) - 1`.
At `num_times = 1` this drops the final coefficient of the convolution (the
exact 1-fold self-convolution of `[3, 5, 7]` is `[3, 5, 7]` itself, but the
function returns `[3, 5]`); at `num_times = 3` the returned length is `8`,
not the exact convolution length `3 * (3 - 1) + 1 = 7` (a trailing zero is
appended).  Only at `num_times = 2` do the two agree, as on the documented
example `[9, 30, 67, 70, 49]`. -/
theorem self_convolve_output_length_bug :
    self_convolve ([3, 5, 7] : List ℚ) 1 = [3, 5] ∧
    nFoldConvolve ([3, 5, 7] : List ℚ) 1 = [3, 5, 7] ∧
    self_convolve ([3, 5, 7] : List ℚ) 2 = [9, 30, 67, 70, 49] ∧
    (self_convolve ([3, 5, 7] : List ℚ) 3).length = 8 ∧ 3 * (3 - 1) + 1 = 7 := by
  refine ⟨?_, ?_, ?_, ?_, rfl⟩ <;>
    norm_num [self_convolve, nFoldConvolve, fftconvolve, List.range_succ,
      Finset.sum_range_succ, List.getD]

/-! ### The PrivacyLossDistribution entity and its operations -/

/-- Models the state of the `PrivacyLossDistribution` class: the discretized
probability mass function (keys are the integer multipliers of
`value_discretization_interval`), the discretization interval, the mass at
infinite privacy loss, and the rounding direction. -/
structure PrivacyLossDistribution where
  rounded_probability_mass_function : List (ℤ × ℝ)
  value_discretization_interval : ℝ
  infinity_mass : ℝ
  pessimistic_estimate : Bool

/-- Models `collections.defaultdict(lambda: 0)` accumulation `d[k] += v`: an
existing entry is increased in place, a missing key is appended (Python
dictionaries keep insertion order). -/
def addTo {κ : Type} [DecidableEq κ] : List (κ × ℝ) → κ → ℝ → List (κ × ℝ)
  | [], k, v => [(k, v)]
  | e :: rest, k, v => if e.1 = k then (e.1, e.2 + v) :: rest else e :: addTo rest k v

/-- `round_fn = math.ceil if pessimistic_estimate else math.floor`. -/
noncomputable def round_fn (pessimistic_estimate : Bool) (x : ℝ) : ℤ :=
  if pessimistic_estimate then ⌈x⌉ else ⌊x⌋

/-- `math.exp` on a log-mass that may be `-math.inf` (modelled by `⊥`):
`math.exp(-math.inf) = 0.0`. -/
noncomputable def expWB (x : WithBot ℝ) : ℝ :=
  if x = ⊥ then 0 else Real.exp (x.unbot' 0)

/-- Models `mapping.get(outcome, -math.inf)` on a log-pmf dictionary. -/
def lookupWB (d : List (ℤ × WithBot ℝ)) (k : ℤ) : WithBot ℝ := (lookupKey d k).getD ⊥

namespace PrivacyLossDistribution

/-- Models `PrivacyLossDistribution.identity`: a single bucket at privacy
loss `0` carrying mass `1`, no infinity mass, pessimistic (the constructor
default). -/
def identity (value_discretization_interval : ℝ) : PrivacyLossDistribution :=
  ⟨[(0, 1)], value_discretization_interval, 0, true⟩

/-- Models `PrivacyLossDistribution.from_two_probability_mass_functions`.
Outcomes are integers; a log-mass dictionary value is `⊥` for an explicit
`-math.inf` entry, and a missing outcome reads as `⊥` via `lookupWB`. -/
noncomputable def from_two_probability_mass_functions
    (log_probability_mass_function_lower log_probability_mass_function_upper :
      List (ℤ × WithBot ℝ))
    (pessimistic_estimate : Bool) (value_discretization_interval : ℝ)
    (log_mass_truncation_bound : WithBot ℝ) : PrivacyLossDistribution :=
  let infinity_mass : ℝ :=
    ((log_probability_mass_function_upper.filter (fun e =>
        lookupWB log_probability_mass_function_lower e.1 = ⊥)).map (fun e =>
      expWB (lookupWB log_probability_mass_function_upper e.1))).sum +
    (if pessimistic_estimate then
      ((log_probability_mass_function_lower.filter (fun e =>
          lookupWB log_probability_mass_function_lower e.1 ≠ ⊥ ∧
          ¬ log_mass_truncation_bound <
              lookupWB log_probability_mass_function_upper e.1)).map (fun e =>
        expWB (lookupWB log_probability_mass_function_upper e.1))).sum
    else 0)
  let probability_mass_function : List (ℝ × ℝ) :=
    log_probability_mass_function_lower.foldl (fun acc e =>
      if lookupWB log_probability_mass_function_lower e.1 = ⊥ then acc
      else if log_mass_truncation_bound <
          lookupWB log_probability_mass_function_upper e.1 then
        addTo acc
          ((lookupWB log_probability_mass_function_upper e.1).unbot' 0 -
            (lookupWB log_probability_mass_function_lower e.1).unbot' 0)
          (expWB (lookupWB log_probability_mass_function_upper e.1))
      else acc) []
  let rounded_probability_mass_function : List (ℤ × ℝ) :=
    probability_mass_function.foldl (fun acc e =>
      addTo acc (round_fn pessimistic_estimate (e.1 / value_discretization_interval)) e.2) []
  ⟨rounded_probability_mass_function, value_discretization_interval, infinity_mass,
    pessimistic_estimate⟩

/-- Models `PrivacyLossDistribution.from_randomized_response`. -/
noncomputable def from_randomized_response (noise_parameter : ℝ) (num_buckets : ℤ)
    (pessimistic_estimate : Bool) (value_discretization_interval : ℝ) :
    Except String PrivacyLossDistribution :=
  if noise_parameter ≤ 0 ∨ 1 ≤ noise_parameter then
    Except.error "Noise parameter must be strictly between 0 and 1"
  else if num_buckets ≤ 1 then
    Except.error "Number of buckets must be strictly greater than 1"
  else
    let probability_output_equal_input :=
      (1 - noise_parameter) + noise_parameter / (num_buckets : ℝ)
    let probability_output_not_input := noise_parameter / (num_buckets : ℝ)
    let d1 := addTo []
      (round_fn pessimistic_estimate
        (Real.log (probability_output_equal_input / probability_output_not_input) /
          value_discretization_interval))
      probability_output_equal_input
    let d2 := addTo d1
      (round_fn pessimistic_estimate
        (Real.log (probability_output_not_input / probability_output_equal_input) /
          value_discretization_interval))
      probability_output_not_input
    let d3 := addTo d2 0 (probability_output_not_input * ((num_buckets : ℝ) - 2))
    Except.ok ⟨d3, value_discretization_interval, 0, pessimistic_estimate⟩

/-- Models `common.DifferentialPrivacyParameters` after its `__post_init__`
validation has passed. -/
structure DifferentialPrivacyParameters where
  epsilon : ℝ
  delta : ℝ

/-- Models construction of `DifferentialPrivacyParameters` including the
`__post_init__` validation. -/
noncomputable def mkDifferentialPrivacyParameters (epsilon delta : ℝ) :
    Except String DifferentialPrivacyParameters :=
  if epsilon < 0 then Except.error "epsilon should be positive"
  else if delta < 0 ∨ 1 < delta then Except.error "delta should be between 0 and 1"
  else Except.ok ⟨epsilon, delta⟩

/-- Models `PrivacyLossDistribution.from_privacy_parameters`.  The source
builds a two-entry dict literal; when the two rounded keys coincide the
second binding overwrites the first (Python keeps the last value). -/
noncomputable def from_privacy_parameters
    (privacy_parameters : DifferentialPrivacyParameters)
    (value_discretization_interval : ℝ) : PrivacyLossDistribution :=
  let delta := privacy_parameters.delta
  let epsilon := privacy_parameters.epsilon
  let k1 : ℤ := ⌈epsilon / value_discretization_interval⌉
  let k2 : ℤ := ⌈-epsilon / value_discretization_interval⌉
  let v1 := (1 - delta) / (1 + Real.exp (-epsilon))
  let v2 := (1 - delta) / (1 + Real.exp epsilon)
  ⟨if k1 = k2 then [(k1, v2)] else [(k1, v1), (k2, v2)],
    value_discretization_interval, delta, true⟩

/-- Models `PrivacyLossDistribution.get_delta_for_epsilon`: the running
accumulation over the stored buckets, skipping buckets with value at most
`epsilon` or with non-positive stored mass. -/
noncomputable def get_delta_for_epsilon (p : PrivacyLossDistribution) (epsilon : ℝ) : ℝ :=
  p.infinity_mass +
    (p.rounded_probability_mass_function.map (fun e =>
      if epsilon < (e.1 : ℝ) * p.value_discretization_interval ∧ 0 < e.2 then
        (1 - Real.exp (epsilon - (e.1 : ℝ) * p.value_discretization_interval)) * e.2
      else 0)).sum

/-- The hockey-stick divergence exactly as the specification words it:
`infinity_mass + Σ_{bucket value v > eps} mass(v) · (1 − e^{eps − v})`. -/
noncomputable def hockey_stick_formula (p : PrivacyLossDistribution) (epsilon : ℝ) : ℝ :=
  p.infinity_mass +
    (p.rounded_probability_mass_function.map (fun e =>
      if epsilon < (e.1 : ℝ) * p.value_discretization_interval then
        e.2 * (1 - Real.exp (epsilon - (e.1 : ℝ) * p.value_discretization_interval))
      else 0)).sum

/-- The sweep loop of `get_epsilon_for_delta` over bucket entries in
descending key order, carrying `mass_upper` and `mass_lower`.  `Sum.inl` is
the early `return max(0, val)` inside the loop; `Sum.inr` carries the
accumulators out of the loop (covering both the `break` and normal exit). -/
noncomputable def geLoop (delta interval : ℝ) :
    List (ℤ × ℝ) → ℝ → ℝ → ℝ ⊕ (ℝ × ℝ)
  | [], mass_upper, mass_lower => Sum.inr (mass_upper, mass_lower)
  | e :: rest, mass_upper, mass_lower =>
    let val : ℝ := (e.1 : ℝ) * interval
    if delta < mass_upper ∧ 0 < mass_lower ∧
        val ≤ Real.log ((mass_upper - delta) / mass_lower) then
      Sum.inr (mass_upper, mass_lower)
    else
      let mass_upper' := mass_upper + e.2
      let mass_lower' := mass_lower + Real.exp (-val) * e.2
      if delta ≤ mass_upper' ∧ mass_lower' = 0 then Sum.inl (max 0 val)
      else geLoop delta interval rest mass_upper' mass_lower'

/-- Models `PrivacyLossDistribution.get_epsilon_for_delta`; `none` stands
for the `math.inf` return. -/
noncomputable def get_epsilon_for_delta (p : PrivacyLossDistribution) (delta : ℝ) :
    Option ℝ :=
  if delta < p.infinity_mass then none
  else
    match geLoop delta p.value_discretization_interval
        (p.rounded_probability_mass_function.insertionSort (fun a b => b.1 ≤ a.1))
        p.infinity_mass 0 with
    | Sum.inl r => some r
    | Sum.inr (mass_upper, mass_lower) =>
      if mass_upper ≤ mass_lower + delta then some 0
      else some (Real.log ((mass_upper - delta) / mass_lower))

/-- Models `PrivacyLossDistribution.compose`.  The two `ValueError` guards
and the `ValueError` raised by `min()` on an empty mass function are
modelled by `Except.error`. -/
noncomputable def compose (p q : PrivacyLossDistribution) (tail_mass_truncation : ℝ) :
    Except String PrivacyLossDistribution :=
  if p.value_discretization_interval ≠ q.value_discretization_interval then
    Except.error "Discretization intervals are different"
  else if p.pessimistic_estimate ≠ q.pessimistic_estimate then
    Except.error "Estimation types are different"
  else
    match convolve_dictionary p.rounded_probability_mass_function
        q.rounded_probability_mass_function tail_mass_truncation with
    | none => Except.error "min() arg is an empty sequence"
    | some new_rounded_probability_mass_function =>
      Except.ok ⟨new_rounded_probability_mass_function,
        p.value_discretization_interval,
        p.infinity_mass + q.infinity_mass - p.infinity_mass * q.infinity_mass +
          (if p.pessimistic_estimate then tail_mass_truncation else 0),
        p.pessimistic_estimate⟩

/-- Models `PrivacyLossDistribution.self_compose`. -/
noncomputable def self_compose (p : PrivacyLossDistribution) (num_times : ℕ) :
    Except String PrivacyLossDistribution :=
  match self_convolve_dictionary p.rounded_probability_mass_function num_times with
  | none => Except.error "min() arg is an empty sequence"
  | some new_rounded_probability_mass_function =>
    Except.ok ⟨new_rounded_probability_mass_function, p.value_discretization_interval,
      1 - (1 - p.infinity_mass) ^ num_times, p.pessimistic_estimate⟩

end PrivacyLossDistribution

/-! ### C1: get_delta_for_epsilon against the spec formula -/

/-- C1: when all stored masses are nonnegative (and the infinity mass is
nonnegative), `get_delta_for_epsilon` equals the specification's
hockey-stick formula `infinity_mass + Σ_{v > eps} mass(v)·(1 − e^{eps−v})`:
the code's extra `mass > 0` guard only skips zero-mass buckets, which
contribute nothing to the sum. -/
theorem get_delta_for_epsilon_eq_hockey_stick (p : PrivacyLossDistribution)
    (epsilon : ℝ)
    (hmass : ∀ e ∈ p.rounded_probability_mass_function, 0 ≤ e.2)
    (hinf : 0 ≤ p.infinity_mass) :
    PrivacyLossDistribution.get_delta_for_epsilon p epsilon
      = PrivacyLossDistribution.hockey_stick_formula p epsilon := by
  unfold PrivacyLossDistribution.get_delta_for_epsilon
    PrivacyLossDistribution.hockey_stick_formula
  congr 1
  apply congrArg
  apply List.map_congr_left
  intro e he
  by_cases hv : epsilon < (e.1 : ℝ) * p.value_discretization_interval
  · by_cases hm : 0 < e.2
    · rw [if_pos ⟨hv, hm⟩, if_pos hv, mul_comm]
    · have hz : e.2 = 0 := le_antisymm (not_lt.mp hm) (hmass e he)
      rw [if_neg (by exact fun h => hm h.2), if_pos hv, hz, zero_mul]
  · rw [if_neg (by exact fun h => hv h.1), if_neg hv]

/-- Closed-form witness for `get_delta_for_epsilon_eq_hockey_stick`. -/
theorem get_delta_for_epsilon_eq_hockey_stick_witness :
    (∀ e ∈ (⟨[(1, 1/2)], 1, 0, true⟩ :
        PrivacyLossDistribution).rounded_probability_mass_function, 0 ≤ e.2) ∧
    PrivacyLossDistribution.get_delta_for_epsilon ⟨[(1, 1/2)], 1, 0, true⟩ 0
      = PrivacyLossDistribution.hockey_stick_formula ⟨[(1, 1/2)], 1, 0, true⟩ 0 :=
  ⟨by norm_num,
    get_delta_for_epsilon_eq_hockey_stick ⟨[(1, 1/2)], 1, 0, true⟩ 0
      (by norm_num) le_rfl⟩

/-! ### C2 and C8: compose success and failure modes -/

/-- Packing a nonempty dictionary always succeeds. -/
theorem dictionary_to_list_isSome (d : List (ℤ × α)) (h : d ≠ []) :
    ∃ off L, dictionary_to_list d = some (off, L) := by
  cases d
  · exact absurd rfl h
  · exact ⟨_, _, rfl⟩

/-- A PLD with an empty mass function and all probability mass at infinite
loss; a directly constructible instance of the class. -/
noncomputable def pldEmpty : PrivacyLossDistribution := ⟨[], 1, 1, true⟩

/-- C2 counterexample: `pldEmpty` shares interval and estimate type with
itself, yet `compose` raises `ValueError` (from `min()` on the empty
dictionary) instead of returning a PLD, so no result with the claimed
`infinity_mass` exists. -/
theorem compose_infinity_mass_counterexample :
    pldEmpty.value_discretization_interval = pldEmpty.value_discretization_interval ∧
    pldEmpty.pessimistic_estimate = pldEmpty.pessimistic_estimate ∧
    PrivacyLossDistribution.compose pldEmpty pldEmpty 0 =
      Except.error "min() arg is an empty sequence" ∧
    ¬ ∃ r, PrivacyLossDistribution.compose pldEmpty pldEmpty 0 = Except.ok r ∧
        r.infinity_mass = pldEmpty.infinity_mass + pldEmpty.infinity_mass -
          pldEmpty.infinity_mass * pldEmpty.infinity_mass + 0 := by
  have hcomp : PrivacyLossDistribution.compose pldEmpty pldEmpty 0 =
      Except.error "min() arg is an empty sequence" := by
    simp [PrivacyLossDistribution.compose, pldEmpty, convolve_dictionary,
      dictionary_to_list]
  refine ⟨rfl, rfl, hcomp, ?_⟩
  rintro ⟨r, hr, -⟩
  rw [hcomp] at hr
  exact Except.noConfusion hr

/-- C2 (amended): for operands with equal discretization interval and equal
estimate type whose mass functions are nonempty, `compose` succeeds and the
result's `infinity_mass` is `m1 + m2 − m1·m2`, plus `tail_mass_truncation`
exactly when the operands are pessimistic. -/
theorem compose_infinity_mass (p q : PrivacyLossDistribution) (t : ℝ)
    (hival : p.value_discretization_interval = q.value_discretization_interval)
    (hpess : p.pessimistic_estimate = q.pessimistic_estimate)
    (hp : p.rounded_probability_mass_function ≠ [])
    (hq : q.rounded_probability_mass_function ≠ []) :
    ∃ r, PrivacyLossDistribution.compose p q t = Except.ok r ∧
      r.infinity_mass = p.infinity_mass + q.infinity_mass -
        p.infinity_mass * q.infinity_mass +
        (if p.pessimistic_estimate then t else 0) := by
  obtain ⟨o1, L1, h1⟩ := dictionary_to_list_isSome _ hp
  obtain ⟨o2, L2, h2⟩ := dictionary_to_list_isSome _ hq
  refine ⟨⟨list_to_dictionary (fftconvolve L1 L2) (o1 + o2) t,
    p.value_discretization_interval,
    p.infinity_mass + q.infinity_mass - p.infinity_mass * q.infinity_mass +
      (if p.pessimistic_estimate then t else 0), p.pessimistic_estimate⟩, ?_, rfl⟩
  rw [PrivacyLossDistribution.compose, if_neg (not_not_intro hival),
    if_neg (not_not_intro hpess)]
  rw [show convolve_dictionary p.rounded_probability_mass_function
      q.rounded_probability_mass_function t
      = some (list_to_dictionary (fftconvolve L1 L2) (o1 + o2) t) by
    rw [convolve_dictionary, h1, h2]]

/-- Closed-form witness for `compose_infinity_mass`. -/
theorem compose_infinity_mass_witness :
    ∃ r, PrivacyLossDistribution.compose ⟨[(0, 1)], 1, 0, true⟩ ⟨[(0, 1)], 1, 0, true⟩ (1/2)
        = Except.ok r ∧
      r.infinity_mass = (0 : ℝ) + 0 - 0 * 0 + (if true then (1/2 : ℝ) else 0) :=
  compose_infinity_mass ⟨[(0, 1)], 1, 0, true⟩ ⟨[(0, 1)], 1, 0, true⟩ (1/2)
    rfl rfl (by simp) (by simp)

/-- C8 counterexample: `compose` on two empty-pmf PLDs with identical
interval and estimate type still raises `ValueError` (from `min()`), so
"raises iff the operands differ in interval or estimate type" fails. -/
theorem compose_error_iff_counterexample :
    PrivacyLossDistribution.compose pldEmpty pldEmpty (1/10^15) =
      Except.error "min() arg is an empty sequence" ∧
    pldEmpty.value_discretization_interval = pldEmpty.value_discretization_interval ∧
    pldEmpty.pessimistic_estimate = pldEmpty.pessimistic_estimate := by
  refine ⟨?_, rfl, rfl⟩
  simp [PrivacyLossDistribution.compose, pldEmpty, convolve_dictionary,
    dictionary_to_list]

/-- C8 (amended): for operands with nonempty mass functions, `compose`
raises (returns an error) precisely when the operands differ in
`value_discretization_interval` or in `pessimistic_estimate`; being a pure
function of its operands, it modifies neither. -/
theorem compose_error_iff (p q : PrivacyLossDistribution) (t : ℝ)
    (hp : p.rounded_probability_mass_function ≠ [])
    (hq : q.rounded_probability_mass_function ≠ []) :
    (∃ msg, PrivacyLossDistribution.compose p q t = Except.error msg) ↔
      (p.value_discretization_interval ≠ q.value_discretization_interval ∨
       p.pessimistic_estimate ≠ q.pessimistic_estimate) := by
  by_cases hival : p.value_discretization_interval = q.value_discretization_interval
  · by_cases hpess : p.pessimistic_estimate = q.pessimistic_estimate
    · obtain ⟨r, hr, -⟩ := compose_infinity_mass p q t hival hpess hp hq
      simp only [hival, hpess]
      constructor
      · rintro ⟨msg, hmsg⟩
        rw [hr] at hmsg
        exact Except.noConfusion hmsg
      · rintro (h | h) <;> exact absurd rfl h
    · constructor
      · intro _
        exact Or.inr hpess
      · intro _
        refine ⟨"Estimation types are different", ?_⟩
        rw [PrivacyLossDistribution.compose, if_neg (not_not_intro hival), if_pos hpess]
  · constructor
    · intro _
      exact Or.inl hival
    · intro _
      refine ⟨"Discretization intervals are different", ?_⟩
      rw [PrivacyLossDistribution.compose, if_pos hival]

/-- Closed-form witness for `compose_error_iff`. -/
theorem compose_error_iff_witness :
    (∃ msg, PrivacyLossDistribution.compose ⟨[(0, 1)], 1, 0, true⟩ ⟨[(0, 1)], 2, 0, true⟩ 0
        = Except.error msg) ↔
      ((⟨[(0, 1)], 1, 0, true⟩ : PrivacyLossDistribution).value_discretization_interval ≠
        (⟨[(0, 1)], 2, 0, true⟩ : PrivacyLossDistribution).value_discretization_interval ∨
       (⟨[(0, 1)], 1, 0, true⟩ : PrivacyLossDistribution).pessimistic_estimate ≠
        (⟨[(0, 1)], 2, 0, true⟩ : PrivacyLossDistribution).pessimistic_estimate) :=
  compose_error_iff ⟨[(0, 1)], 1, 0, true⟩ ⟨[(0, 1)], 2, 0, true⟩ 0 (by simp) (by simp)

/-! ### C5: composition with the identity PLD -/

/-- Convolving any list with the unit impulse `[1]` returns the list. -/
theorem fftconvolve_single (L : List α) : fftconvolve L ([1] : List α) = L := by
  apply List.ext_getElem
  · simp [fftconvolve]
  · intro k h1 h2
    have hk : k < L.length := by simpa [fftconvolve] using h2
    have hterm : ∀ i ∈ Finset.range L.length,
        (if i ≤ k then L.getD i 0 * ([1] : List α).getD (k - i) 0 else 0)
          = if i = k then L.getD k 0 else 0 := by
      intro i _
      by_cases hik : i = k
      · subst hik
        simp [List.getD]
      · by_cases hle : i ≤ k
        · have : k - i ≠ 0 := by omega
          rw [if_pos hle, if_neg hik]
          have h1g : ([1] : List α).getD (k - i) 0 = 0 := by
            apply List.getD_eq_default
            simpa using Nat.one_le_iff_ne_zero.mpr this
          rw [h1g, mul_zero]
        · rw [if_neg hle, if_neg hik]
    have hsum : (Finset.range L.length).sum
        (fun i => if i ≤ k then L.getD i 0 * ([1] : List α).getD (k - i) 0 else 0)
        = L.getD k 0 := by
      rw [Finset.sum_congr rfl hterm, Finset.sum_ite_eq' (Finset.range L.length) k
        (fun _ => L.getD k 0), if_pos (Finset.mem_range.mpr hk)]
    simp only [fftconvolve]
    rw [List.getElem_map, List.getElem_range, hsum]
    rw [List.getD_eq_getElem?_getD, List.getElem?_eq_getElem hk, Option.getD_some]

/-- A one-bucket pessimistic PLD: all mass at privacy loss equal to the
discretization interval. -/
noncomputable def pldUnit : PrivacyLossDistribution := ⟨[(0, 1)], 1, 0, true⟩

/-- C5 counterexample: composing `pldUnit` with `identity` at the source's
default `tail_mass_truncation = 1e-15` returns a PLD whose `infinity_mass`
is `1e-15`, not `pldUnit`'s `0` (pessimistic composition always folds the
truncation budget into the infinity mass). -/
theorem compose_identity_counterexample :
    PrivacyLossDistribution.compose pldUnit (PrivacyLossDistribution.identity 1)
        (1/10^15)
      = Except.ok ⟨[(0, 1)], 1, 1/10^15, true⟩ ∧
    (1/10^15 : ℝ) ≠ 0 ∧ pldUnit.infinity_mass = 0 := by
  refine ⟨?_, by norm_num, rfl⟩
  have hconv : convolve_dictionary pldUnit.rounded_probability_mass_function
      (PrivacyLossDistribution.identity 1).rounded_probability_mass_function (1/10^15)
      = some [(0, 1)] := by
    show convolve_dictionary [(0, 1)] [(0, 1)] (1/10^15) = some [(0, 1)]
    have hpack : dictionary_to_list ([(0, 1)] : List (ℤ × ℝ)) = some (0, [1]) := by
      norm_num [dictionary_to_list, keyMin, keyMax, getOr0, lookupKey, List.range_succ]
    rw [convolve_dictionary, hpack]
    show some (list_to_dictionary (fftconvolve ([1] : List ℝ) [1]) ((0 : ℤ) + 0) (1/10^15))
      = some [(0, 1)]
    rw [fftconvolve_single]
    norm_num [list_to_dictionary, truncIdx, List.range', List.filterMap_cons, List.getD]
  rw [PrivacyLossDistribution.compose, if_neg (by norm_num [pldUnit,
    PrivacyLossDistribution.identity]), if_neg (by norm_num [pldUnit,
    PrivacyLossDistribution.identity]), hconv]
  show Except.ok _ = _
  norm_num [pldUnit, PrivacyLossDistribution.identity]

/-- C5 (amended): for a pessimistic PLD with a nonempty, duplicate-free,
strictly positive mass function, composing with `identity` at
`tail_mass_truncation = 0` returns a PLD with the same mass function (as a
key-value mapping), the same `infinity_mass`, and the same
`value_discretization_interval`. -/
theorem compose_identity_amended (p : PrivacyLossDistribution)
    (hpess : p.pessimistic_estimate = true)
    (hne : p.rounded_probability_mass_function ≠ [])
    (hnd : (p.rounded_probability_mass_function.map Prod.fst).Nodup)
    (hpos : ∀ e ∈ p.rounded_probability_mass_function, 0 < e.2) :
    ∃ r, PrivacyLossDistribution.compose p
        (PrivacyLossDistribution.identity p.value_discretization_interval) 0
        = Except.ok r ∧
      (∀ k, lookupKey r.rounded_probability_mass_function k
        = lookupKey p.rounded_probability_mass_function k) ∧
      r.infinity_mass = p.infinity_mass ∧
      r.value_discretization_interval = p.value_discretization_interval := by
  obtain ⟨off, L, hpack⟩ := dictionary_to_list_isSome _ hne
  have hpackId : dictionary_to_list ([(0, 1)] : List (ℤ × ℝ)) = some (0, [1]) := by
    norm_num [dictionary_to_list, keyMin, keyMax, getOr0, lookupKey, List.range_succ]
  have hconv : convolve_dictionary p.rounded_probability_mass_function
      (PrivacyLossDistribution.identity
        p.value_discretization_interval).rounded_probability_mass_function 0
      = some (list_to_dictionary L off 0) := by
    show convolve_dictionary p.rounded_probability_mass_function [(0, 1)] 0 = _
    rw [convolve_dictionary, hpack, hpackId]
    show some (list_to_dictionary (fftconvolve L [1]) (off + 0) 0) = _
    rw [fftconvolve_single, add_zero]
  refine ⟨⟨list_to_dictionary L off 0, p.value_discretization_interval,
    p.infinity_mass + 0 - p.infinity_mass * 0 + (if p.pessimistic_estimate then 0 else 0),
    p.pessimistic_estimate⟩, ?_, ?_, ?_, rfl⟩
  · have hi : (PrivacyLossDistribution.identity
        p.value_discretization_interval).value_discretization_interval
        = p.value_discretization_interval := rfl
    have hpe : (PrivacyLossDistribution.identity
        p.value_discretization_interval).pessimistic_estimate = true := rfl
    have h0 : (PrivacyLossDistribution.identity
        p.value_discretization_interval).infinity_mass = 0 := rfl
    rw [PrivacyLossDistribution.compose, hi, hpe, h0, if_neg (not_not_intro rfl),
      if_neg (by rw [hpess]; exact not_not_intro rfl), hconv]
  · intro k
    exact unpack_pack_lookup p.rounded_probability_mass_function hnd hpos hpack k
  · simp

/-- Closed-form witness for `compose_identity_amended`. -/
theorem compose_identity_amended_witness :
    ∃ r, PrivacyLossDistribution.compose pldUnit
        (PrivacyLossDistribution.identity pldUnit.value_discretization_interval) 0
        = Except.ok r ∧
      (∀ k, lookupKey r.rounded_probability_mass_function k
        = lookupKey pldUnit.rounded_probability_mass_function k) ∧
      r.infinity_mass = pldUnit.infinity_mass ∧
      r.value_discretization_interval = pldUnit.value_discretization_interval :=
  compose_identity_amended pldUnit rfl (by simp [pldUnit]) (by simp [pldUnit])
    (by norm_num [pldUnit])

/-! ### C10: get_epsilon_for_delta never returns a negative value -/

/-- Invariant of the `get_epsilon_for_delta` sweep: `mass_lower` stays
nonnegative and can only be zero while `mass_upper` has not yet exceeded
`delta`; consequently every early return is nonnegative and the final
accumulators keep the invariant. -/
theorem geLoop_invariant (delta interval : ℝ) :
    ∀ (l : List (ℤ × ℝ)), (∀ e ∈ l, 0 ≤ e.2) →
      ∀ mu ml : ℝ, 0 ≤ ml → (ml = 0 → mu ≤ delta) →
      (∀ r, PrivacyLossDistribution.geLoop delta interval l mu ml = Sum.inl r → 0 ≤ r) ∧
      (∀ mu' ml',
        PrivacyLossDistribution.geLoop delta interval l mu ml = Sum.inr (mu', ml') →
        0 ≤ ml' ∧ (ml' = 0 → mu' ≤ delta))
  | [], _, mu, ml, hml, himp => by
    constructor
    · intro r hr
      rw [PrivacyLossDistribution.geLoop] at hr
      exact Sum.noConfusion hr
    · intro mu' ml' hr
      rw [PrivacyLossDistribution.geLoop] at hr
      have h : mu = mu' ∧ ml = ml' := by
        have h2 : (mu, ml) = (mu', ml') := by injection hr
        exact ⟨congrArg Prod.fst h2, congrArg Prod.snd h2⟩
      exact h.1 ▸ h.2 ▸ ⟨hml, himp⟩
  | e :: rest, hmass, mu, ml, hml, himp => by
    have hmass' : ∀ x ∈ rest, 0 ≤ x.2 := fun x hx => hmass x (List.mem_cons_of_mem e hx)
    have he2 : 0 ≤ e.2 := hmass e (List.mem_cons_self e rest)
    rw [PrivacyLossDistribution.geLoop]
    by_cases hbreak : delta < mu ∧ 0 < ml ∧
        (e.1 : ℝ) * interval ≤ Real.log ((mu - delta) / ml)
    · rw [if_pos hbreak]
      constructor
      · intro r hr
        exact Sum.noConfusion hr
      · intro mu' ml' hr
        have h : mu = mu' ∧ ml = ml' := by
          have h2 : (mu, ml) = (mu', ml') := by injection hr
          exact ⟨congrArg Prod.fst h2, congrArg Prod.snd h2⟩
        exact h.1 ▸ h.2 ▸ ⟨hml, himp⟩
    · rw [if_neg hbreak]
      have hml1 : 0 ≤ ml + Real.exp (-((e.1 : ℝ) * interval)) * e.2 :=
        add_nonneg hml (mul_nonneg (Real.exp_pos _).le he2)
      by_cases hearly : delta ≤ mu + e.2 ∧ ml + Real.exp (-((e.1 : ℝ) * interval)) * e.2 = 0
      · rw [if_pos hearly]
        constructor
        · intro r hr
          have : max 0 ((e.1 : ℝ) * interval) = r := by simpa using hr
          exact this ▸ le_max_left 0 _
        · intro mu' ml' hr
          exact Sum.noConfusion hr
      · rw [if_neg hearly]
        apply geLoop_invariant delta interval rest hmass' _ _ hml1
        intro h0
        by_contra hgt
        exact hearly ⟨le_of_lt (by linarith [not_le.mp hgt]), h0⟩

/-- C10: for a PLD with nonnegative stored masses and nonnegative infinity
mass and any `delta ∈ [0, 1]`, `get_epsilon_for_delta` returns either
`math.inf` (modelled by `none`) or a nonnegative real — never a negative
value.  All four return paths (the `infinity_mass > delta` check, the
degenerate `max(0, val)` branch, the `0` branch, and the final logarithm)
are covered. -/
theorem get_epsilon_for_delta_nonneg (p : PrivacyLossDistribution) (delta : ℝ)
    (hmass : ∀ e ∈ p.rounded_probability_mass_function, 0 ≤ e.2)
    (hinf : 0 ≤ p.infinity_mass) (hdelta : 0 ≤ delta ∧ delta ≤ 1) :
    ∀ r, PrivacyLossDistribution.get_epsilon_for_delta p delta = some r → 0 ≤ r := by
  intro r hr
  rw [PrivacyLossDistribution.get_epsilon_for_delta] at hr
  by_cases hd : delta < p.infinity_mass
  · rw [if_pos hd] at hr
    exact Option.noConfusion hr
  · rw [if_neg hd] at hr
    have hsorted_mass : ∀ e ∈ p.rounded_probability_mass_function.insertionSort
        (fun a b => b.1 ≤ a.1), 0 ≤ e.2 := fun e he =>
      hmass e ((List.perm_insertionSort _ _).mem_iff.mp he)
    have hloop := geLoop_invariant delta p.value_discretization_interval _ hsorted_mass
      p.infinity_mass 0 le_rfl (fun _ => not_lt.mp hd)
    cases hgl : PrivacyLossDistribution.geLoop delta p.value_discretization_interval
        (p.rounded_probability_mass_function.insertionSort (fun a b => b.1 ≤ a.1))
        p.infinity_mass 0 with
    | inl x =>
      rw [hgl] at hr
      have hr' : some x = some r := hr
      obtain rfl : x = r := by injection hr'
      exact hloop.1 x hgl
    | inr pair =>
      obtain ⟨mu, ml⟩ := pair
      rw [hgl] at hr
      have hr' : (if mu ≤ ml + delta then some (0 : ℝ)
          else some (Real.log ((mu - delta) / ml))) = some r := hr
      obtain ⟨hml, himpl⟩ := hloop.2 mu ml hgl
      by_cases hle : mu ≤ ml + delta
      · rw [if_pos hle] at hr'
        obtain rfl : (0 : ℝ) = r := by injection hr'
        exact le_rfl
      · rw [if_neg hle] at hr'
        obtain rfl : Real.log ((mu - delta) / ml) = r := by injection hr'
        have hmlpos : 0 < ml := by
          rcases lt_or_eq_of_le hml with h | h
          · exact h
          · exact absurd (himpl h.symm) (by intro hc; exact hle (by linarith))
        apply Real.log_nonneg
        rw [le_div_iff₀ hmlpos]
        linarith [not_le.mp hle]

/-- Closed-form witness for `get_epsilon_for_delta_nonneg`. -/
theorem get_epsilon_for_delta_nonneg_witness :
    PrivacyLossDistribution.get_epsilon_for_delta ⟨[], 1, 0, true⟩ 0 = some 0 ∧
    (0 : ℝ) ≤ 0 := by
  have hval : PrivacyLossDistribution.get_epsilon_for_delta
      (⟨[], 1, 0, true⟩ : PrivacyLossDistribution) 0 = some 0 := by
    simp [PrivacyLossDistribution.get_epsilon_for_delta,
      PrivacyLossDistribution.geLoop, List.insertionSort]
  exact ⟨hval,
    get_epsilon_for_delta_nonneg ⟨[], 1, 0, true⟩ 0 (by simp) le_rfl
      ⟨le_rfl, zero_le_one⟩ 0 hval⟩

/-! ### C6: positivity of stored masses across the public constructors -/

/-- Every entry of `list_to_dictionary` carries a strictly positive mass
(the scan's filter only keeps entries `> 0`). -/
theorem list_to_dictionary_pos (l : List α) (off : ℤ) (t : α) :
    ∀ e ∈ list_to_dictionary l off t, 0 < e.2 := by
  intro e he
  simp only [list_to_dictionary] at he
  obtain ⟨i, -, hi⟩ := List.mem_filterMap.mp he
  by_cases h : 0 < l.getD i 0
  · rw [if_pos h] at hi
    obtain rfl : ((i : ℤ) + off, l.getD i 0) = e := by injection hi
    exact h
  · rw [if_neg h] at hi
    exact Option.noConfusion hi

/-- A successful `convolve_dictionary` only stores strictly positive
masses. -/
theorem convolve_dictionary_pos (d1 d2 : List (ℤ × α)) (t : α) (L : List (ℤ × α))
    (h : convolve_dictionary d1 d2 t = some L) : ∀ e ∈ L, 0 < e.2 := by
  rw [convolve_dictionary] at h
  cases h1 : dictionary_to_list d1 with
  | none =>
    rw [h1] at h
    exact Option.noConfusion h
  | some ml1 =>
    cases h2 : dictionary_to_list d2 with
    | none =>
      rw [h1, h2] at h
      exact Option.noConfusion h
    | some ml2 =>
      obtain ⟨m1, l1⟩ := ml1
      obtain ⟨m2, l2⟩ := ml2
      rw [h1, h2] at h
      have h' : some (list_to_dictionary (fftconvolve l1 l2) (m1 + m2) t) = some L := h
      obtain rfl : list_to_dictionary (fftconvolve l1 l2) (m1 + m2) t = L := by
        injection h'
      exact list_to_dictionary_pos _ _ _

/-- A successful `self_convolve_dictionary` only stores strictly positive
masses. -/
theorem self_convolve_dictionary_pos (d : List (ℤ × α)) (n : ℕ) (L : List (ℤ × α))
    (h : self_convolve_dictionary d n = some L) : ∀ e ∈ L, 0 < e.2 := by
  rw [self_convolve_dictionary] at h
  cases h1 : dictionary_to_list d with
  | none =>
    rw [h1] at h
    exact Option.noConfusion h
  | some ml =>
    rw [h1] at h
    have h' : some (list_to_dictionary (self_convolve ml.2 n) (ml.1 * (n : ℤ)) 0)
        = some L := h
    obtain rfl : list_to_dictionary (self_convolve ml.2 n) (ml.1 * (n : ℤ)) 0 = L := by
      injection h'
    exact list_to_dictionary_pos _ _ _

/-- `addTo` with a strictly positive increment keeps every stored mass
strictly positive. -/
theorem addTo_pos {κ : Type} [DecidableEq κ] :
    ∀ (d : List (κ × ℝ)) (k : κ) (v : ℝ), (∀ e ∈ d, 0 < e.2) → 0 < v →
      ∀ e ∈ addTo d k v, 0 < e.2
  | [], k, v, _, hv, e, he => by
    rw [addTo] at he
    obtain rfl : e = (k, v) := by simpa using he
    exact hv
  | f :: rest, k, v, hd, hv, e, he => by
    by_cases hk : f.1 = k
    · rw [addTo, if_pos hk] at he
      rcases List.mem_cons.mp he with h | h
      · subst h
        exact add_pos (hd f (List.mem_cons_self f rest)) hv
      · exact hd e (List.mem_cons_of_mem f h)
    · rw [addTo, if_neg hk] at he
      rcases List.mem_cons.mp he with h | h
      · rw [h]
        exact hd f (List.mem_cons_self f rest)
      · exact addTo_pos rest k v (fun x hx => hd x (List.mem_cons_of_mem f hx)) hv e h

/-- Folding a step function that preserves all-positive accumulators keeps
the accumulator all-positive. -/
theorem foldl_step_pos {κ β : Type} (f : List (κ × ℝ) → β → List (κ × ℝ)) :
    ∀ (l : List β) (acc : List (κ × ℝ)),
      (∀ (acc' : List (κ × ℝ)) (x : β), x ∈ l → (∀ y ∈ acc', 0 < y.2) →
        ∀ y ∈ f acc' x, 0 < y.2) →
      (∀ y ∈ acc, 0 < y.2) → ∀ y ∈ l.foldl f acc, 0 < y.2 := by
  intro l
  induction l with
  | nil =>
    intro acc _ hacc
    exact hacc
  | cons e rest ih =>
    intro acc hstep hacc
    exact ih (f acc e) (fun acc' x hx => hstep acc' x (List.mem_cons_of_mem e hx))
      (hstep acc e (List.mem_cons_self e rest) hacc)

/-- `expWB` of a finite log-mass is strictly positive. -/
theorem expWB_pos (x : WithBot ℝ) (hx : x ≠ ⊥) : 0 < expWB x := by
  rw [expWB, if_neg hx]
  exact Real.exp_pos _

/-- Anything strictly above another log-mass is finite. -/
theorem ne_bot_of_gt {b x : WithBot ℝ} (h : b < x) : x ≠ ⊥ := by
  rintro rfl
  exact not_lt_bot h

/-- C6 (amended): every stored mass is strictly positive for `identity`,
`from_two_probability_mass_functions`, `compose` and `self_compose`
(unconditionally, on success), for `from_randomized_response` whenever
`num_buckets > 2`, and for `from_privacy_parameters` whenever `delta < 1`.
The two excluded boundary cases retain zero-mass entries (see the
counterexample). -/
theorem pld_positive_mass_amended :
    (∀ ival : ℝ,
      ∀ e ∈ (PrivacyLossDistribution.identity ival).rounded_probability_mass_function,
        0 < e.2) ∧
    (∀ (lower upper : List (ℤ × WithBot ℝ)) (pess : Bool) (ival : ℝ)
        (bound : WithBot ℝ),
      ∀ e ∈ (PrivacyLossDistribution.from_two_probability_mass_functions
          lower upper pess ival bound).rounded_probability_mass_function, 0 < e.2) ∧
    (∀ (p : ℝ) (k : ℤ) (pess : Bool) (ival : ℝ) (r : PrivacyLossDistribution),
      0 < p → p < 1 → 2 < k →
      PrivacyLossDistribution.from_randomized_response p k pess ival = Except.ok r →
      ∀ e ∈ r.rounded_probability_mass_function, 0 < e.2) ∧
    (∀ (pp : PrivacyLossDistribution.DifferentialPrivacyParameters) (ival : ℝ),
      pp.delta < 1 →
      ∀ e ∈ (PrivacyLossDistribution.from_privacy_parameters
          pp ival).rounded_probability_mass_function, 0 < e.2) ∧
    (∀ (p q : PrivacyLossDistribution) (t : ℝ) (r : PrivacyLossDistribution),
      PrivacyLossDistribution.compose p q t = Except.ok r →
      ∀ e ∈ r.rounded_probability_mass_function, 0 < e.2) ∧
    (∀ (p : PrivacyLossDistribution) (n : ℕ) (r : PrivacyLossDistribution),
      PrivacyLossDistribution.self_compose p n = Except.ok r →
      ∀ e ∈ r.rounded_probability_mass_function, 0 < e.2) := by
  refine ⟨?_, ?_, ?_, ?_, ?_, ?_⟩
  · intro ival e he
    obtain rfl : e = ((0 : ℤ), (1 : ℝ)) := by
      simpa [PrivacyLossDistribution.identity] using he
    norm_num
  · intro lower upper pess ival bound e he
    simp only [PrivacyLossDistribution.from_two_probability_mass_functions] at he
    have hpmf : ∀ x ∈ lower.foldl (fun acc e =>
        if lookupWB lower e.1 = ⊥ then acc
        else if bound < lookupWB upper e.1 then
          addTo acc ((lookupWB upper e.1).unbot' 0 - (lookupWB lower e.1).unbot' 0)
            (expWB (lookupWB upper e.1))
        else acc) [], 0 < x.2 := by
      apply foldl_step_pos _ lower [] _ (by simp)
      intro acc' x _ hacc y hy
      by_cases h1 : lookupWB lower x.1 = ⊥
      · rw [if_pos h1] at hy
        exact hacc y hy
      · rw [if_neg h1] at hy
        by_cases h2 : bound < lookupWB upper x.1
        · rw [if_pos h2] at hy
          exact addTo_pos acc' _ _ hacc (expWB_pos _ (ne_bot_of_gt h2)) y hy
        · rw [if_neg h2] at hy
          exact hacc y hy
    apply foldl_step_pos _ _ [] _ (by simp) e he
    intro acc' x hx hacc y hy
    exact addTo_pos acc' _ _ hacc (hpmf x hx) y hy
  · intro p k pess ival r hp hp1 hk hok
    have hk0 : (0 : ℝ) < (k : ℝ) := by exact_mod_cast (by omega : (0 : ℤ) < k)
    have hk2 : (0 : ℝ) < (k : ℝ) - 2 := by
      have : (2 : ℝ) < (k : ℝ) := by exact_mod_cast hk
      linarith
    rw [PrivacyLossDistribution.from_randomized_response,
      if_neg (by push_neg; constructor <;> linarith), if_neg (by omega)] at hok
    obtain rfl : (⟨addTo (addTo (addTo []
        (round_fn pess (Real.log (((1 - p) + p / (k : ℝ)) / (p / (k : ℝ))) / ival))
        ((1 - p) + p / (k : ℝ)))
        (round_fn pess (Real.log ((p / (k : ℝ)) / ((1 - p) + p / (k : ℝ))) / ival))
        (p / (k : ℝ))) 0 (p / (k : ℝ) * ((k : ℝ) - 2)), ival, 0, pess⟩ :
        PrivacyLossDistribution) = r := Except.ok.inj hok
    have hv2 : 0 < p / (k : ℝ) := div_pos hp hk0
    have hv1 : 0 < (1 - p) + p / (k : ℝ) := by linarith
    have hv3 : 0 < p / (k : ℝ) * ((k : ℝ) - 2) := mul_pos hv2 hk2
    exact addTo_pos _ _ _ (addTo_pos _ _ _ (addTo_pos _ _ _ (by simp) hv1) hv2) hv3
  · intro pp ival hd e he
    simp only [PrivacyLossDistribution.from_privacy_parameters] at he
    have hv1 : 0 < (1 - pp.delta) / (1 + Real.exp (-pp.epsilon)) := by
      apply div_pos (by linarith)
      positivity
    have hv2 : 0 < (1 - pp.delta) / (1 + Real.exp pp.epsilon) := by
      apply div_pos (by linarith)
      positivity
    by_cases hkk : (⌈pp.epsilon / ival⌉ : ℤ) = ⌈-pp.epsilon / ival⌉
    · rw [if_pos hkk] at he
      obtain rfl : e = (⌈pp.epsilon / ival⌉,
          (1 - pp.delta) / (1 + Real.exp pp.epsilon)) := by simpa using he
      exact hv2
    · rw [if_neg hkk] at he
      rcases List.mem_cons.mp he with h | h
      · subst h
        exact hv1
      · obtain rfl : e = (⌈-pp.epsilon / ival⌉,
            (1 - pp.delta) / (1 + Real.exp pp.epsilon)) := by simpa using h
        exact hv2
  · intro p q t r hok
    rw [PrivacyLossDistribution.compose] at hok
    by_cases h1 : p.value_discretization_interval ≠ q.value_discretization_interval
    · rw [if_pos h1] at hok
      exact Except.noConfusion hok
    · rw [if_neg h1] at hok
      by_cases h2 : p.pessimistic_estimate ≠ q.pessimistic_estimate
      · rw [if_pos h2] at hok
        exact Except.noConfusion hok
      · rw [if_neg h2] at hok
        cases hconv : convolve_dictionary p.rounded_probability_mass_function
            q.rounded_probability_mass_function t with
        | none =>
          rw [hconv] at hok
          exact Except.noConfusion hok
        | some L =>
          rw [hconv] at hok
          obtain rfl : (⟨L, p.value_discretization_interval,
              p.infinity_mass + q.infinity_mass - p.infinity_mass * q.infinity_mass +
                (if p.pessimistic_estimate then t else 0),
              p.pessimistic_estimate⟩ : PrivacyLossDistribution) = r :=
            Except.ok.inj hok
          exact convolve_dictionary_pos _ _ _ _ hconv
  · intro p n r hok
    rw [PrivacyLossDistribution.self_compose] at hok
    cases hconv : self_convolve_dictionary p.rounded_probability_mass_function n with
    | none =>
      rw [hconv] at hok
      exact Except.noConfusion hok
    | some L =>
      rw [hconv] at hok
      obtain rfl : (⟨L, p.value_discretization_interval,
          1 - (1 - p.infinity_mass) ^ n, p.pessimistic_estimate⟩ :
          PrivacyLossDistribution) = r := Except.ok.inj hok
      exact self_convolve_dictionary_pos _ _ _ hconv

/-- C6 counterexample: `from_randomized_response` with `num_buckets = 2` adds
`probability_output_not_input * (num_buckets - 2) = 0` to the defaultdict at
key `0`, retaining a zero-mass entry `(0, 0)` (the two nonzero-loss buckets
land at a positive and a negative key, so they do not absorb it); and
`from_privacy_parameters` with `delta = 1` stores two zero-mass entries. -/
theorem pld_positive_mass_counterexample :
    (∃ k1 k2 : ℤ, 0 < k1 ∧ k2 < 0 ∧
      PrivacyLossDistribution.from_randomized_response (1/2) 2 true 1
        = Except.ok ⟨[(k1, 3/4), (k2, 1/4), (0, 0)], 1, 0, true⟩) ∧
    ¬ ((0 : ℝ) < 0) ∧
    (PrivacyLossDistribution.from_privacy_parameters
        ⟨1, 1⟩ 1).rounded_probability_mass_function = [(1, 0), (-1, 0)] := by
  have hlog1 : (1 : ℝ) ≤ Real.log 3 := by
    rw [Real.le_log_iff_exp_le (by norm_num : (0:ℝ) < 3)]
    have := Real.exp_one_lt_d9
    linarith
  have hk1 : (0 : ℤ) < ⌈Real.log 3⌉ := by
    rw [Int.lt_ceil]
    push_cast
    linarith
  have hk2 : (⌈-Real.log 3⌉ : ℤ) < 0 := by
    have h : (⌈-Real.log 3⌉ : ℤ) ≤ -1 := by
      rw [Int.ceil_le]
      push_cast
      linarith
    omega
  refine ⟨⟨⌈Real.log 3⌉, ⌈-Real.log 3⌉, hk1, hk2, ?_⟩, by norm_num, ?_⟩
  · have hne : (⌈Real.log 3⌉ : ℤ) ≠ ⌈-Real.log 3⌉ := by omega
    have h01 : (⌈Real.log 3⌉ : ℤ) ≠ 0 := by omega
    have h02 : (⌈-Real.log 3⌉ : ℤ) ≠ 0 := by omega
    rw [PrivacyLossDistribution.from_randomized_response,
      if_neg (by norm_num), if_neg (by decide)]
    have hlog13 : Real.log ((1 : ℝ)/3) = -Real.log 3 := by
      rw [one_div, Real.log_inv]
    norm_num [round_fn, hlog13, addTo, hne, h01, h02]
  · simp only [PrivacyLossDistribution.from_privacy_parameters]
    norm_num [Int.ceil_neg, Int.floor_one]

/-- Closed-form witness for `pld_positive_mass_amended`. -/
theorem pld_positive_mass_amended_witness :
    (∀ e ∈ (PrivacyLossDistribution.identity 1).rounded_probability_mass_function,
      0 < e.2) ∧
    ((0 : ℝ) < 1) ∧
    (∀ e ∈ (PrivacyLossDistribution.from_privacy_parameters
        ⟨0, 0⟩ 1).rounded_probability_mass_function, 0 < e.2) :=
  ⟨pld_positive_mass_amended.1 1, by norm_num,
    pld_positive_mass_amended.2.2.2.1 ⟨0, 0⟩ 1 (by norm_num)⟩

/-! ### C3: the monotone function inverter (`common.inverse_monotone_function`)

The source allows `±math.inf` bounds; the claims considered here concern
finite bounds, so bounds are modelled as rationals and the source's
`!= math.inf` guards are then always taken.  The two `while` loops are
modelled with an explicit iteration budget (`fuel`) computed up front; the
budget provably suffices for the executions the theorems below describe
(continuous mode with positive tolerance, and the concrete discrete run of
the counterexample), where the loop reaches its exit condition exactly as
the source does. -/

/-- Models `common.BinarySearchParameters` with finite bounds. -/
structure BinarySearchParameters where
  lower_bound : ℚ
  upper_bound : ℚ
  initial_guess : Option ℚ
  tolerance : ℚ
  discrete : Bool

/-- The `check` lambda of `inverse_monotone_function`: for an increasing
function, `func_value <= value`; for a decreasing one,
`func_value > value`. -/
def bsCheck (increasing : Bool) (value func_value : ℚ) : Bool :=
  if increasing then decide (func_value ≤ value) else decide (value < func_value)

/-- The `initial_guess` doubling loop: while the guess is below the upper
bound and still satisfies `check`, move the lower bracket to the guess and
double the guess. -/
def guessLoop (f : ℚ → ℚ) (chk : ℚ → Bool) (upper_x : ℚ) :
    ℕ → ℚ → ℚ → ℚ × ℚ
  | 0, lower_x, g => (lower_x, g)
  | fuel + 1, lower_x, g =>
    if g < upper_x ∧ chk (f g) then guessLoop f chk upper_x fuel g (2 * g)
    else (lower_x, g)

/-- Iteration budget for `guessLoop`, sufficient for every positive
guess. -/
def guessFuel (g upper_x : ℚ) : ℕ := (⌈upper_x / g⌉).toNat + 1

/-- The bisection loop: while `upper_x - lower_x > tolerance`, replace one
bracket end by the midpoint (the integer floor midpoint in discrete
mode). -/
def bisectLoop (f : ℚ → ℚ) (chk : ℚ → Bool) (discrete : Bool) (tolerance : ℚ) :
    ℕ → ℚ → ℚ → ℚ × ℚ
  | 0, lower_x, upper_x => (lower_x, upper_x)
  | fuel + 1, lower_x, upper_x =>
    if tolerance < upper_x - lower_x then
      let mid_x : ℚ := if discrete then ((⌊(upper_x + lower_x) / 2⌋ : ℤ) : ℚ)
        else (upper_x + lower_x) / 2
      if chk (f mid_x) then bisectLoop f chk discrete tolerance fuel mid_x upper_x
      else bisectLoop f chk discrete tolerance fuel lower_x mid_x
    else (lower_x, upper_x)

/-- Iteration budget for `bisectLoop`, sufficient whenever the tolerance is
positive and the mode is continuous (the gap halves each iteration). -/
def bisectFuel (gap tolerance : ℚ) : ℕ :=
  if 0 < tolerance then (⌈gap / tolerance⌉).toNat + 1 else 0

/-- The bracket `(lower_x, upper_x)` after the optional guess-doubling
phase: `upper_x` is clamped to `min(upper_x, initial_guess_x)` exactly as
in the source. -/
def imfBracket (f : ℚ → ℚ) (chk : ℚ → Bool) (sp : BinarySearchParameters) : ℚ × ℚ :=
  match sp.initial_guess with
  | none => (sp.lower_bound, sp.upper_bound)
  | some g =>
    let gl := guessLoop f chk sp.upper_bound (guessFuel g sp.upper_bound)
      sp.lower_bound g
    (gl.1, min sp.upper_bound gl.2)

/-- The value returned by `inverse_monotone_function` when neither early
`None` fires: bisect the bracket, then return `lower_x` for increasing
mode and `upper_x` for decreasing mode. -/
def imfResult (func : ℚ → ℚ) (value : ℚ) (sp : BinarySearchParameters)
    (increasing : Bool) : ℚ :=
  let chk := bsCheck increasing value
  let br := imfBracket func chk sp
  let tolerance : ℚ := if sp.discrete then 1 else sp.tolerance
  let res := bisectLoop func chk sp.discrete tolerance
    (bisectFuel (br.2 - br.1) tolerance) br.1 br.2
  if increasing then res.1 else res.2

/-- Models `common.inverse_monotone_function` on finite bounds. -/
def inverse_monotone_function (func : ℚ → ℚ) (value : ℚ)
    (search_parameters : BinarySearchParameters) (increasing : Bool) : Option ℚ :=
  if increasing ∧ value < func search_parameters.lower_bound then none
  else if ¬increasing ∧ value < func search_parameters.upper_bound then none
  else some (imfResult func value search_parameters increasing)

theorem bisectLoop_step_true (f : ℚ → ℚ) (chk : ℚ → Bool) (d : Bool) (tol : ℚ)
    (fuel : ℕ) (lo hi mid : ℚ) (hgap : tol < hi - lo)
    (hmid : (if d = true then ((⌊(hi + lo) / 2⌋ : ℤ) : ℚ) else (hi + lo) / 2) = mid)
    (hchk : chk (f mid) = true) :
    bisectLoop f chk d tol (fuel + 1) lo hi = bisectLoop f chk d tol fuel mid hi := by
  rw [bisectLoop, if_pos hgap, hmid]
  show (if chk (f mid) = true then bisectLoop f chk d tol fuel mid hi
    else bisectLoop f chk d tol fuel lo mid) = _
  rw [hchk, if_pos rfl]

theorem bisectLoop_step_false (f : ℚ → ℚ) (chk : ℚ → Bool) (d : Bool) (tol : ℚ)
    (fuel : ℕ) (lo hi mid : ℚ) (hgap : tol < hi - lo)
    (hmid : (if d = true then ((⌊(hi + lo) / 2⌋ : ℤ) : ℚ) else (hi + lo) / 2) = mid)
    (hchk : chk (f mid) = false) :
    bisectLoop f chk d tol (fuel + 1) lo hi = bisectLoop f chk d tol fuel lo mid := by
  rw [bisectLoop, if_pos hgap, hmid]
  show (if chk (f mid) = true then bisectLoop f chk d tol fuel mid hi
    else bisectLoop f chk d tol fuel lo mid) = _
  rw [hchk, if_neg Bool.false_ne_true]

theorem bisectLoop_done (f : ℚ → ℚ) (chk : ℚ → Bool) (d : Bool) (tol : ℚ)
    (fuel : ℕ) (lo hi : ℚ) (hgap : ¬ tol < hi - lo) :
    bisectLoop f chk d tol (fuel + 1) lo hi = (lo, hi) := by
  rw [bisectLoop, if_neg hgap]

/-- Concrete discrete-mode run of the inverter used by the C3
counterexample: the loop trace is
`(0,10) -> (0,5) -> (2,5) -> (3,5) -> (4,5)` and `upper_x = 5` is
returned. -/
theorem imf_discrete_run :
    inverse_monotone_function (fun x => -x) (-9/2)
        ⟨0, 10, none, 1/10000000, true⟩ false = some 5 := by
  have hm1 : (⌊(((10 : ℚ) + 0) / 2)⌋ : ℤ) = 5 := by
    rw [Int.floor_eq_iff]
    norm_num
  have hm2 : (⌊(((5 : ℚ) + 0) / 2)⌋ : ℤ) = 2 := by
    rw [Int.floor_eq_iff]
    norm_num
  have hm3 : (⌊(((5 : ℚ) + 2) / 2)⌋ : ℤ) = 3 := by
    rw [Int.floor_eq_iff]
    norm_num
  have hm4 : (⌊(((5 : ℚ) + 3) / 2)⌋ : ℤ) = 4 := by
    rw [Int.floor_eq_iff]
    norm_num
  have hfuel : bisectFuel ((10 : ℚ) - 0) 1 = 11 := by
    have h10 : ((10 : ℚ) - 0) / 1 = ((10 : ℤ) : ℚ) := by norm_num
    rw [bisectFuel, if_pos (by norm_num), h10, Int.ceil_intCast]
    rfl
  have hloop : bisectLoop (fun x : ℚ => -x) (bsCheck false (-9/2)) true 1 11 0 10
      = (4, 5) := by
    rw [show (11 : ℕ) = 10 + 1 from rfl,
      bisectLoop_step_false _ _ _ _ _ _ _ 5 (by norm_num)
        (by rw [if_pos rfl, hm1]; norm_num) (by norm_num [bsCheck])]
    rw [show (10 : ℕ) = 9 + 1 from rfl,
      bisectLoop_step_true _ _ _ _ _ _ _ 2 (by norm_num)
        (by rw [if_pos rfl, hm2]; norm_num) (by norm_num [bsCheck])]
    rw [show (9 : ℕ) = 8 + 1 from rfl,
      bisectLoop_step_true _ _ _ _ _ _ _ 3 (by norm_num)
        (by rw [if_pos rfl, hm3]; norm_num) (by norm_num [bsCheck])]
    rw [show (8 : ℕ) = 7 + 1 from rfl,
      bisectLoop_step_true _ _ _ _ _ _ _ 4 (by norm_num)
        (by rw [if_pos rfl, hm4]; norm_num) (by norm_num [bsCheck])]
    rw [show (7 : ℕ) = 6 + 1 from rfl, bisectLoop_done _ _ _ _ _ _ _ (by norm_num)]
  rw [inverse_monotone_function, if_neg (by norm_num), if_neg (by norm_num)]
  rw [imfResult]
  show some (bisectLoop (fun x : ℚ => -x) (bsCheck false (-9/2)) true
    (if true then 1 else 1/10000000)
    (bisectFuel ((10 : ℚ) - 0) (if true then 1 else 1/10000000)) 0 10).2 = some 5
  rw [if_pos rfl, hfuel, hloop]


theorem bisectLoop_pair_inv (f : ℚ → ℚ) (chk : ℚ → Bool) (d : Bool) (tol : ℚ)
    (P : ℚ → ℚ → Prop)
    (hstep : ∀ lo hi, P lo hi → tol < hi - lo →
      ∀ m, (if d = true then ((⌊(hi + lo) / 2⌋ : ℤ) : ℚ) else (hi + lo) / 2) = m →
        (chk (f m) = true → P m hi) ∧ (chk (f m) = false → P lo m)) :
    ∀ (n : ℕ) (lo hi : ℚ), P lo hi →
      P (bisectLoop f chk d tol n lo hi).1 (bisectLoop f chk d tol n lo hi).2 := by
  intro n
  induction n with
  | zero => intro lo hi hP; exact hP
  | succ k ih =>
    intro lo hi hP
    by_cases hgap : tol < hi - lo
    · rcases Bool.eq_false_or_eq_true
        (chk (f (if d = true then ((⌊(hi + lo) / 2⌋ : ℤ) : ℚ) else (hi + lo) / 2)))
        with hc | hc
      · rw [bisectLoop_step_true f chk d tol k lo hi _ hgap rfl hc]
        exact ih _ _ ((hstep lo hi hP hgap _ rfl).1 hc)
      · rw [bisectLoop_step_false f chk d tol k lo hi _ hgap rfl hc]
        exact ih _ _ ((hstep lo hi hP hgap _ rfl).2 hc)
    · rw [bisectLoop_done f chk d tol k lo hi hgap]
      exact hP

theorem bisectLoop_gap (f : ℚ → ℚ) (chk : ℚ → Bool) (tol : ℚ) :
    ∀ (n : ℕ) (lo hi : ℚ), hi - lo ≤ tol * 2 ^ n →
      (bisectLoop f chk false tol n lo hi).2 -
        (bisectLoop f chk false tol n lo hi).1 ≤ tol := by
  intro n
  induction n with
  | zero =>
    intro lo hi h
    simpa [bisectLoop] using h
  | succ k ih =>
    intro lo hi h
    by_cases hgap : tol < hi - lo
    · have hmid : (if (false : Bool) = true then ((⌊(hi + lo) / 2⌋ : ℤ) : ℚ)
          else (hi + lo) / 2) = (hi + lo) / 2 := by
        rw [if_neg Bool.false_ne_true]
      rcases Bool.eq_false_or_eq_true (chk (f ((hi + lo) / 2))) with hc | hc
      · rw [bisectLoop_step_true f chk false tol k lo hi _ hgap hmid hc]
        apply ih
        have he : hi - (hi + lo) / 2 = (hi - lo) / 2 := by ring
        rw [he]
        have : (hi - lo) / 2 ≤ (tol * 2 ^ (k + 1)) / 2 := by linarith
        calc (hi - lo) / 2 ≤ (tol * 2 ^ (k + 1)) / 2 := this
        _ = tol * 2 ^ k := by ring
      · rw [bisectLoop_step_false f chk false tol k lo hi _ hgap hmid hc]
        apply ih
        have he : (hi + lo) / 2 - lo = (hi - lo) / 2 := by ring
        rw [he]
        have : (hi - lo) / 2 ≤ (tol * 2 ^ (k + 1)) / 2 := by linarith
        calc (hi - lo) / 2 ≤ (tol * 2 ^ (k + 1)) / 2 := this
        _ = tol * 2 ^ k := by ring
    · rw [bisectLoop_done f chk false tol k lo hi hgap]
      linarith [not_lt.mp hgap]

theorem gap_le_bisectFuel_pow (gap tol : ℚ) (htol : 0 < tol) :
    gap ≤ tol * 2 ^ bisectFuel gap tol := by
  rw [bisectFuel, if_pos htol]
  rcases le_or_lt gap 0 with h | h
  · have hpos : (0 : ℚ) < tol * 2 ^ ((⌈gap / tol⌉).toNat + 1) := by positivity
    linarith
  · have h1 : gap / tol ≤ ((⌈gap / tol⌉ : ℤ) : ℚ) := Int.le_ceil _
    have h2 : (0 : ℤ) < ⌈gap / tol⌉ := Int.ceil_pos.mpr (div_pos h htol)
    have h3 : ((⌈gap / tol⌉).toNat : ℤ) = ⌈gap / tol⌉ := Int.toNat_of_nonneg h2.le
    set c : ℕ := (⌈gap / tol⌉).toNat with hc
    have h4 : gap / tol ≤ (c : ℚ) := by
      calc gap / tol ≤ ((⌈gap / tol⌉ : ℤ) : ℚ) := h1
      _ = (c : ℚ) := by rw [← h3]; push_cast; ring
    have h5 : (c : ℚ) ≤ 2 ^ (c + 1) := by
      have : c < 2 ^ c := Nat.lt_two_pow c
      have h6 : c ≤ 2 ^ (c + 1) := le_trans this.le
        (Nat.pow_le_pow_right (by norm_num) (Nat.le_succ c))
      exact_mod_cast h6
    have h7 : gap = tol * (gap / tol) := by field_simp
    rw [h7]
    have := mul_le_mul_of_nonneg_left (le_trans h4 h5) htol.le
    exact this


theorem imfResult_no_guess_dec (f : ℚ → ℚ) (value : ℚ) (sp : BinarySearchParameters)
    (hg : sp.initial_guess = none) (hd : sp.discrete = false) :
    imfResult f value sp false =
      (bisectLoop f (bsCheck false value) false sp.tolerance
        (bisectFuel (sp.upper_bound - sp.lower_bound) sp.tolerance)
        sp.lower_bound sp.upper_bound).2 := by
  rw [imfResult]
  simp only [imfBracket, hg, hd, Bool.false_eq_true, if_false]

theorem imfResult_no_guess_inc (f : ℚ → ℚ) (value : ℚ) (sp : BinarySearchParameters)
    (hg : sp.initial_guess = none) (hd : sp.discrete = false) :
    imfResult f value sp true =
      (bisectLoop f (bsCheck true value) false sp.tolerance
        (bisectFuel (sp.upper_bound - sp.lower_bound) sp.tolerance)
        sp.lower_bound sp.upper_bound).1 := by
  rw [imfResult]
  simp only [imfBracket, hg, hd, Bool.false_eq_true, if_false, if_true]

theorem imf_decreasing_spec (f : ℚ → ℚ) (value : ℚ) (sp : BinarySearchParameters)
    (hg : sp.initial_guess = none) (hd : sp.discrete = false)
    (htol : 0 < sp.tolerance) (hle : sp.lower_bound ≤ sp.upper_bound)
    (hmono : ∀ x y : ℚ, x ≤ y → f y ≤ f x) :
    ((inverse_monotone_function f value sp false = none) ↔
      ∀ x : ℚ, sp.lower_bound ≤ x → x ≤ sp.upper_bound → value < f x) ∧
    (∀ r : ℚ, inverse_monotone_function f value sp false = some r →
      sp.lower_bound ≤ r ∧ r ≤ sp.upper_bound ∧ f r ≤ value ∧
      (∀ x : ℚ, sp.lower_bound ≤ x → x ≤ sp.upper_bound → f x ≤ value →
        r - sp.tolerance ≤ x) ∧
      (∀ xs : ℚ,
        IsLeast {x : ℚ | (sp.lower_bound ≤ x ∧ x ≤ sp.upper_bound) ∧ f x ≤ value} xs →
        |r - xs| ≤ sp.tolerance)) := by
  have hneg1 : ¬((false : Bool) = true ∧ value < f sp.lower_bound) := by
    rintro ⟨h, -⟩
    exact Bool.false_ne_true h
  by_cases hv : value < f sp.upper_bound
  · have hres : inverse_monotone_function f value sp false = none := by
      rw [inverse_monotone_function, if_neg hneg1, if_pos ⟨Bool.false_ne_true, hv⟩]
    refine ⟨⟨fun _ x hx1 hx2 => lt_of_lt_of_le hv (hmono x sp.upper_bound hx2),
      fun _ => hres⟩, ?_⟩
    intro r hr
    rw [hres] at hr
    exact absurd hr (by simp)
  · have hres : inverse_monotone_function f value sp false
        = some (imfResult f value sp false) := by
      rw [inverse_monotone_function, if_neg hneg1, if_neg (fun hh => hv hh.2)]
    refine ⟨⟨fun h => ?_, fun hall => absurd (hall sp.upper_bound hle le_rfl) hv⟩, ?_⟩
    · rw [hres] at h
      exact absurd h (by simp)
    intro r hr
    rw [hres] at hr
    have hre : r = (bisectLoop f (bsCheck false value) false sp.tolerance
        (bisectFuel (sp.upper_bound - sp.lower_bound) sp.tolerance)
        sp.lower_bound sp.upper_bound).2 := by
      rw [← Option.some.inj hr, imfResult_no_guess_dec f value sp hg hd]
    subst hre
    set L := bisectLoop f (bsCheck false value) false sp.tolerance
        (bisectFuel (sp.upper_bound - sp.lower_bound) sp.tolerance)
        sp.lower_bound sp.upper_bound with hL
    have hstep : ∀ lo hi,
        (sp.lower_bound ≤ lo ∧ hi ≤ sp.upper_bound ∧ lo ≤ hi ∧ f hi ≤ value ∧
          ∀ x : ℚ, sp.lower_bound ≤ x → f x ≤ value → lo ≤ x) →
        sp.tolerance < hi - lo →
        ∀ m, (if (false : Bool) = true then ((⌊(hi + lo) / 2⌋ : ℤ) : ℚ)
            else (hi + lo) / 2) = m →
          (bsCheck false value (f m) = true →
            sp.lower_bound ≤ m ∧ hi ≤ sp.upper_bound ∧ m ≤ hi ∧ f hi ≤ value ∧
              ∀ x : ℚ, sp.lower_bound ≤ x → f x ≤ value → m ≤ x) ∧
          (bsCheck false value (f m) = false →
            sp.lower_bound ≤ lo ∧ m ≤ sp.upper_bound ∧ lo ≤ m ∧ f m ≤ value ∧
              ∀ x : ℚ, sp.lower_bound ≤ x → f x ≤ value → lo ≤ x) := by
      rintro lo hi ⟨h1, h2, h3, h4, h5⟩ hgap m hm
      have hm' : m = (hi + lo) / 2 := by rw [← hm, if_neg Bool.false_ne_true]
      have hlom : lo ≤ m := by rw [hm']; linarith
      have hmhi : m ≤ hi := by rw [hm']; linarith
      constructor
      · intro hc
        have hcv : value < f m := by simpa [bsCheck] using hc
        refine ⟨le_trans h1 hlom, h2, hmhi, h4, ?_⟩
        intro x hx1 hx2
        by_contra hxm
        push_neg at hxm
        have := hmono x m hxm.le
        linarith
      · intro hc
        have hcv : f m ≤ value := by
          have : ¬ value < f m := by simpa [bsCheck] using hc
          exact not_lt.mp this
        exact ⟨h1, le_trans hmhi h2, hlom, hcv, h5⟩
    have hinv := bisectLoop_pair_inv f (bsCheck false value) false sp.tolerance
      (fun lo hi => sp.lower_bound ≤ lo ∧ hi ≤ sp.upper_bound ∧ lo ≤ hi ∧
        f hi ≤ value ∧ ∀ x : ℚ, sp.lower_bound ≤ x → f x ≤ value → lo ≤ x)
      hstep (bisectFuel (sp.upper_bound - sp.lower_bound) sp.tolerance)
      sp.lower_bound sp.upper_bound
      ⟨le_rfl, le_rfl, hle, not_lt.mp hv, fun x hx _ => hx⟩
    obtain ⟨g1, g2, g3, g4, g5⟩ := hinv
    have hgapf := bisectLoop_gap f (bsCheck false value) sp.tolerance
      (bisectFuel (sp.upper_bound - sp.lower_bound) sp.tolerance)
      sp.lower_bound sp.upper_bound
      (gap_le_bisectFuel_pow (sp.upper_bound - sp.lower_bound) sp.tolerance htol)
    refine ⟨le_trans g1 g3, g2, g4, ?_, ?_⟩
    · intro x hx1 _ hx3
      have := g5 x hx1 hx3
      linarith
    · intro xs hxs
      obtain ⟨⟨⟨hxs1, hxs2⟩, hxs3⟩, hxsmin⟩ := hxs
      have hub : xs ≤ L.2 := hxsmin ⟨⟨le_trans g1 g3, g2⟩, g4⟩
      have hlb : L.1 ≤ xs := g5 xs hxs1 hxs3
      rw [abs_le]
      constructor <;> linarith

theorem imf_increasing_spec (f : ℚ → ℚ) (value : ℚ) (sp : BinarySearchParameters)
    (hg : sp.initial_guess = none) (hd : sp.discrete = false)
    (htol : 0 < sp.tolerance) (hle : sp.lower_bound ≤ sp.upper_bound)
    (hmono : ∀ x y : ℚ, x ≤ y → f x ≤ f y) :
    ((inverse_monotone_function f value sp true = none) ↔
      ∀ x : ℚ, sp.lower_bound ≤ x → x ≤ sp.upper_bound → value < f x) ∧
    (∀ r : ℚ, inverse_monotone_function f value sp true = some r →
      sp.lower_bound ≤ r ∧ r ≤ sp.upper_bound ∧ f r ≤ value ∧
      (∀ x : ℚ, sp.lower_bound ≤ x → x ≤ sp.upper_bound → f x ≤ value →
        x ≤ r + sp.tolerance) ∧
      (∀ xs : ℚ,
        IsGreatest {x : ℚ | (sp.lower_bound ≤ x ∧ x ≤ sp.upper_bound) ∧ f x ≤ value} xs →
        |r - xs| ≤ sp.tolerance)) := by
  by_cases hv : value < f sp.lower_bound
  · have hres : inverse_monotone_function f value sp true = none := by
      rw [inverse_monotone_function, if_pos ⟨rfl, hv⟩]
    refine ⟨⟨fun _ x hx1 hx2 => lt_of_lt_of_le hv (hmono sp.lower_bound x hx1),
      fun _ => hres⟩, ?_⟩
    intro r hr
    rw [hres] at hr
    exact absurd hr (by simp)
  · have hres : inverse_monotone_function f value sp true
        = some (imfResult f value sp true) := by
      rw [inverse_monotone_function, if_neg (fun hh => hv hh.2),
        if_neg (fun hh => hh.1 rfl)]
    refine ⟨⟨fun h => ?_, fun hall => absurd (hall sp.lower_bound le_rfl hle) hv⟩, ?_⟩
    · rw [hres] at h
      exact absurd h (by simp)
    intro r hr
    rw [hres] at hr
    have hre : r = (bisectLoop f (bsCheck true value) false sp.tolerance
        (bisectFuel (sp.upper_bound - sp.lower_bound) sp.tolerance)
        sp.lower_bound sp.upper_bound).1 := by
      rw [← Option.some.inj hr, imfResult_no_guess_inc f value sp hg hd]
    subst hre
    set L := bisectLoop f (bsCheck true value) false sp.tolerance
        (bisectFuel (sp.upper_bound - sp.lower_bound) sp.tolerance)
        sp.lower_bound sp.upper_bound with hL
    have hstep : ∀ lo hi,
        (sp.lower_bound ≤ lo ∧ hi ≤ sp.upper_bound ∧ lo ≤ hi ∧ f lo ≤ value ∧
          ∀ x : ℚ, x ≤ sp.upper_bound → f x ≤ value → x ≤ hi) →
        sp.tolerance < hi - lo →
        ∀ m, (if (false : Bool) = true then ((⌊(hi + lo) / 2⌋ : ℤ) : ℚ)
            else (hi + lo) / 2) = m →
          (bsCheck true value (f m) = true →
            sp.lower_bound ≤ m ∧ hi ≤ sp.upper_bound ∧ m ≤ hi ∧ f m ≤ value ∧
              ∀ x : ℚ, x ≤ sp.upper_bound → f x ≤ value → x ≤ hi) ∧
          (bsCheck true value (f m) = false →
            sp.lower_bound ≤ lo ∧ m ≤ sp.upper_bound ∧ lo ≤ m ∧ f lo ≤ value ∧
              ∀ x : ℚ, x ≤ sp.upper_bound → f x ≤ value → x ≤ m) := by
      rintro lo hi ⟨h1, h2, h3, h4, h5⟩ hgap m hm
      have hm' : m = (hi + lo) / 2 := by rw [← hm, if_neg Bool.false_ne_true]
      have hlom : lo ≤ m := by rw [hm']; linarith
      have hmhi : m ≤ hi := by rw [hm']; linarith
      constructor
      · intro hc
        have hcv : f m ≤ value := by simpa [bsCheck] using hc
        exact ⟨le_trans h1 hlom, h2, hmhi, hcv, h5⟩
      · intro hc
        have hcv : value < f m := by
          have : ¬ f m ≤ value := by simpa [bsCheck] using hc
          exact not_le.mp this
        refine ⟨h1, le_trans hmhi h2, hlom, h4, ?_⟩
        intro x hx1 hx2
        by_contra hxm
        push_neg at hxm
        have := hmono m x hxm.le
        linarith
    have hinv := bisectLoop_pair_inv f (bsCheck true value) false sp.tolerance
      (fun lo hi => sp.lower_bound ≤ lo ∧ hi ≤ sp.upper_bound ∧ lo ≤ hi ∧
        f lo ≤ value ∧ ∀ x : ℚ, x ≤ sp.upper_bound → f x ≤ value → x ≤ hi)
      hstep (bisectFuel (sp.upper_bound - sp.lower_bound) sp.tolerance)
      sp.lower_bound sp.upper_bound
      ⟨le_rfl, le_rfl, hle, not_lt.mp hv, fun x hx _ => hx⟩
    obtain ⟨g1, g2, g3, g4, g5⟩ := hinv
    have hgapf := bisectLoop_gap f (bsCheck true value) sp.tolerance
      (bisectFuel (sp.upper_bound - sp.lower_bound) sp.tolerance)
      sp.lower_bound sp.upper_bound
      (gap_le_bisectFuel_pow (sp.upper_bound - sp.lower_bound) sp.tolerance htol)
    refine ⟨g1, le_trans g3 g2, g4, ?_, ?_⟩
    · intro x _ hx2 hx3
      have := g5 x hx2 hx3
      linarith
    · intro xs hxs
      obtain ⟨⟨⟨hxs1, hxs2⟩, hxs3⟩, hxsmax⟩ := hxs
      have hlb : L.1 ≤ xs := hxsmax ⟨⟨g1, le_trans g3 g2⟩, g4⟩
      have hub : xs ≤ L.2 := g5 xs hxs2 hxs3
      rw [abs_le]
      constructor <;> linarith

/-- **C3 (counterexample).**  On the discrete search
`inverse_monotone_function (fun x => -x) (-9/2)` over `[0, 10]` with
`tolerance = 1/10^7` and `discrete = true`, the function returns `5`,
yet the smallest `x` in the range with `-x ≤ -9/2` is `9/2`, and `5` is
not within the requested tolerance of `9/2`: in discrete mode the source
replaces the caller's tolerance by `1`, so the returned value is only
guaranteed within `1` of the extremal solution, not within
`params.tolerance` of it. -/
theorem inverse_monotone_function_tolerance_counterexample :
    inverse_monotone_function (fun x : ℚ => -x) (-9/2)
        ⟨0, 10, none, 1/10000000, true⟩ false = some 5 ∧
    IsLeast {x : ℚ | ((0:ℚ) ≤ x ∧ x ≤ 10) ∧ -x ≤ -9/2} (9/2) ∧
    ¬ |(5 : ℚ) - 9/2| ≤ 1/10000000 := by
  refine ⟨?_, ⟨⟨⟨by norm_num, by norm_num⟩, by norm_num⟩,
    fun x hx => by have := hx.2; linarith⟩, ?_⟩
  · exact imf_discrete_run
  · rw [show ((5:ℚ) - 9/2) = 1/2 by norm_num,
      abs_of_pos (by norm_num : (0:ℚ) < (1:ℚ)/2)]
    norm_num

/-- **C3 (amended).**  For finite bounds, continuous (non-discrete) search
with a positive tolerance and no initial guess: for a non-increasing
`func`, `inverse_monotone_function func value sp false` returns `none`
exactly when no `x` in `[lower_bound, upper_bound]` has
`func x ≤ value`, and otherwise returns a value `r` of the range that
satisfies `func r ≤ value` and is within `tolerance` of the smallest
satisfying `x`; for a non-decreasing `func`,
`inverse_monotone_function func value sp true` behaves symmetrically
with the largest satisfying `x`.  (The original claim fails in discrete
mode, where the source overrides the caller's tolerance by `1`.) -/
theorem inverse_monotone_function_tolerance_amended (f : ℚ → ℚ) (value : ℚ)
    (sp : BinarySearchParameters) (hg : sp.initial_guess = none)
    (hd : sp.discrete = false) (htol : 0 < sp.tolerance)
    (hle : sp.lower_bound ≤ sp.upper_bound) :
    ((∀ x y : ℚ, x ≤ y → f y ≤ f x) →
      ((inverse_monotone_function f value sp false = none) ↔
        ∀ x : ℚ, sp.lower_bound ≤ x → x ≤ sp.upper_bound → value < f x) ∧
      (∀ r : ℚ, inverse_monotone_function f value sp false = some r →
        sp.lower_bound ≤ r ∧ r ≤ sp.upper_bound ∧ f r ≤ value ∧
        (∀ x : ℚ, sp.lower_bound ≤ x → x ≤ sp.upper_bound → f x ≤ value →
          r - sp.tolerance ≤ x) ∧
        (∀ xs : ℚ,
          IsLeast {x : ℚ | (sp.lower_bound ≤ x ∧ x ≤ sp.upper_bound) ∧ f x ≤ value} xs →
          |r - xs| ≤ sp.tolerance))) ∧
    ((∀ x y : ℚ, x ≤ y → f x ≤ f y) →
      ((inverse_monotone_function f value sp true = none) ↔
        ∀ x : ℚ, sp.lower_bound ≤ x → x ≤ sp.upper_bound → value < f x) ∧
      (∀ r : ℚ, inverse_monotone_function f value sp true = some r →
        sp.lower_bound ≤ r ∧ r ≤ sp.upper_bound ∧ f r ≤ value ∧
        (∀ x : ℚ, sp.lower_bound ≤ x → x ≤ sp.upper_bound → f x ≤ value →
          x ≤ r + sp.tolerance) ∧
        (∀ xs : ℚ,
          IsGreatest {x : ℚ | (sp.lower_bound ≤ x ∧ x ≤ sp.upper_bound) ∧ f x ≤ value} xs →
          |r - xs| ≤ sp.tolerance))) :=
  ⟨fun hmono => imf_decreasing_spec f value sp hg hd htol hle hmono,
   fun hmono => imf_increasing_spec f value sp hg hd htol hle hmono⟩

/-- Witness for the amended C3 theorem at `f x = -x`, `value = -9/2`,
bounds `[0, 10]`, tolerance `1/2`. -/
theorem inverse_monotone_function_tolerance_amended_witness :
    (inverse_monotone_function (fun x : ℚ => -x) (-9/2)
        ⟨0, 10, none, 1/2, false⟩ false = none ↔
      ∀ x : ℚ, (0:ℚ) ≤ x → x ≤ 10 → (-9/2 : ℚ) < -x) := by
  have h := inverse_monotone_function_tolerance_amended (fun x : ℚ => -x) (-9/2)
    ⟨0, 10, none, 1/2, false⟩ rfl rfl (by norm_num) (by norm_num)
  exact (h.1 (fun x y hxy => by simpa using neg_le_neg hxy)).1

end DPAccounting
